import Mathlib

/-!
A shallow embedding in Lean 4 of the LZXD stream-framing core of the
`rust-lzxd` crate (files `src/internal/bits.rs`, `src/internal/btype.rs`,
`src/internal/decoder.rs`, `src/internal/encoder.rs`, mirrored in
`src/lib.rs`), together with theorems checking the natural-language
specification of that core against the code.

Modelling conventions:
* Machine integers (`u16`, `u32`, `u64`, `usize`) become `Nat`, with an
  explicit `% 2 ^ w` exactly where the Rust code can truncate or wrap.
* Byte sources and sinks (`R: Read`, `W: Write`) become `List Nat`; a
  slice read returns `min requested available` bytes, a `Vec` sink
  accepts every byte, as in the tests of the crate.
* The code is modelled with debug-build semantics: every `debug_assert!`
  whose condition fails, every overflowing subtraction and every shift by
  an amount at least the bit width yields the error `assertFailed`
  (a Rust panic), matching how the crate runs under `cargo test`.
* Fallible operations return `Except LzxError`; `eof` stands for the
  `UnexpectedEof` I/O error on a short source, `invalidInput` and
  `invalidData` for the error kinds built by the `invalid_input!` and
  `invalid_data!` macros; `unimplemented!()` is a panic (`assertFailed`).
* `while` loops become fuel recursion; the fuel is chosen so that it is
  never exhausted on the executions the code itself can perform (when it
  would be, the result is `assertFailed`, which never arises in the
  theorems below).
-/

namespace Lzxd

inductive LzxError where
  | eof
  | assertFailed
  | invalidInput
  | invalidData
  deriving DecidableEq, Repr

/-- `consts.rs`: `pub const WINDOW_MIN: u16 = 15;` -/
def WINDOW_MIN : Nat := 15

/-- `consts.rs`: `pub const WINDOW_MAX: u16 = 21;` -/
def WINDOW_MAX : Nat := 21

/-- `consts.rs`: `pub const CHUNK_SIZE: usize = 0x8000;` -/
def CHUNK_SIZE : Nat := 0x8000

/-! ## BitReader (`bits.rs` lines 6-88) -/

/-- State of `BitReader<R>`: the unread suffix of the byte source plus the
`bit_buffer`/`bits_in_buffer`/`bits_mod_16` fields (`bits.rs` lines 6-11). -/
structure BitReader where
  input : List Nat
  bit_buffer : Nat
  bits_in_buffer : Nat
  bits_mod_16 : Nat
  deriving DecidableEq, Repr

/-- `BitReader::new` (`bits.rs` lines 14-21). -/
def BitReader.new (input : List Nat) : BitReader :=
  ⟨input, 0, 0, 0⟩

/-- `BitReader::ensure_buffer_has_at_least` (`bits.rs` lines 23-31).
Reads one little-endian `u16` word from the source when the buffer is
short.  `next << (48 - bits_in_buffer)` cannot exceed `2 ^ 64` because the
refill branch has `bits_in_buffer < num_bits ≤ 48`. -/
def BitReader.ensure_buffer_has_at_least (num_bits : Nat) (r : BitReader) :
    Except LzxError BitReader :=
  if ¬ num_bits ≤ 48 then .error .assertFailed
  else if r.bits_in_buffer < num_bits then
    match r.input with
    | x0 :: x1 :: rest =>
        .ok ⟨rest,
             r.bit_buffer ||| (x0 + 256 * x1) * 2 ^ (48 - r.bits_in_buffer),
             r.bits_in_buffer + 16, r.bits_mod_16⟩
    | _ => .error .eof
  else .ok r

/-- `BitReader::read_bits` (`bits.rs` lines 33-42).  The shift
`bit_buffer >> (64 - num_bits)` is out of range when `num_bits = 0`
(shift by 64 on a `u64`), and the subtraction `bits_in_buffer - num_bits`
is guarded by the `debug_assert!(bits_in_buffer >= num_bits)`. -/
def BitReader.read_bits (num_bits : Nat) (r : BitReader) :
    Except LzxError (Nat × BitReader) :=
  if ¬ num_bits ≤ 32 then .error .assertFailed
  else
    match r.ensure_buffer_has_at_least num_bits with
    | .error e => .error e
    | .ok r1 =>
      if ¬ num_bits ≤ r1.bits_in_buffer then .error .assertFailed
      else if num_bits = 0 then .error .assertFailed
      else .ok (r1.bit_buffer / 2 ^ (64 - num_bits) % 2 ^ 32,
          ⟨r1.input, r1.bit_buffer * 2 ^ num_bits % 2 ^ 64,
           r1.bits_in_buffer - num_bits,
           (r1.bits_mod_16 + num_bits) % 16⟩)

/-- `BitReader::peek_bits` (`bits.rs` lines 45-50); like `read_bits` but
only the refill mutates the state. -/
def BitReader.peek_bits (num_bits : Nat) (r : BitReader) :
    Except LzxError (Nat × BitReader) :=
  if ¬ num_bits ≤ 32 then .error .assertFailed
  else
    match r.ensure_buffer_has_at_least num_bits with
    | .error e => .error e
    | .ok r1 =>
      if ¬ num_bits ≤ r1.bits_in_buffer then .error .assertFailed
      else if num_bits = 0 then .error .assertFailed
      else .ok (r1.bit_buffer / 2 ^ (64 - num_bits) % 2 ^ 32, r1)

/-- `BitReader::align_to_16` (`bits.rs` lines 52-59). -/
def BitReader.align_to_16 (r : BitReader) : Except LzxError BitReader :=
  match (if r.bits_mod_16 ≠ 0
         then (r.read_bits (16 - r.bits_mod_16)).map Prod.snd
         else .ok r) with
  | .error e => .error e
  | .ok r1 =>
      if r1.bits_in_buffer % 16 ≠ 0 then .error .assertFailed else .ok r1

/-- `BitReader::align_to_8` (`bits.rs` lines 61-68). -/
def BitReader.align_to_8 (r : BitReader) : Except LzxError BitReader :=
  match (if r.bits_mod_16 % 8 ≠ 0
         then (r.read_bits (8 - r.bits_mod_16 % 8)).map Prod.snd
         else .ok r) with
  | .error e => .error e
  | .ok r1 =>
      if r1.bits_in_buffer % 8 ≠ 0 then .error .assertFailed else .ok r1

/-- The `while self.bits_in_buffer != 0 && bytes_read < buf.len()` loop of
`<BitReader as Read>::read` (`bits.rs` lines 75-78).  As in the source,
`bytes_read` is passed along but never incremented by the loop body; each
drained byte is stored at index `bytes_read` of the buffer.  Each
successful iteration removes at least 8 bits from the buffer, so fuel
`r.bits_in_buffer` is never exhausted. -/
def BitReader.drainLoop : Nat → List Nat → Nat → BitReader →
    Except LzxError (List Nat × Nat × BitReader)
  | 0, buf, bytes_read, r =>
      if r.bits_in_buffer ≠ 0 ∧ bytes_read < buf.length then .error .assertFailed
      else .ok (buf, bytes_read, r)
  | fuel + 1, buf, bytes_read, r =>
      if r.bits_in_buffer ≠ 0 ∧ bytes_read < buf.length then
        if ¬ 8 ≤ r.bits_in_buffer then .error .assertFailed
        else
          match r.read_bits 8 with
          | .error e => .error e
          | .ok (v, r1) =>
              drainLoop fuel (buf.set bytes_read (v % 256)) bytes_read r1
      else .ok (buf, bytes_read, r)

/-- `<BitReader as Read>::read` (`bits.rs` lines 71-88).  The caller's
buffer is the list `buf`; the result is the returned byte count, the
buffer contents after the call, and the new reader state.  The direct
read from the underlying source delivers `min remaining available` bytes,
the slice-source semantics. -/
def BitReader.read (buf : List Nat) (r : BitReader) :
    Except LzxError (Nat × List Nat × BitReader) :=
  match r.align_to_8 with
  | .error e => .error e
  | .ok r1 =>
    match BitReader.drainLoop r1.bits_in_buffer buf 0 r1 with
    | .error e => .error e
    | .ok (buf, bytes_read, r2) =>
      if bytes_read < buf.length then
        let num_bytes := min (buf.length - bytes_read) r2.input.length
        .ok (bytes_read + num_bytes,
             buf.take bytes_read ++ r2.input.take num_bytes ++
               buf.drop (bytes_read + num_bytes),
             ⟨r2.input.drop num_bytes, r2.bit_buffer, r2.bits_in_buffer,
              if num_bytes % 2 = 1 then r2.bits_mod_16 ^^^ 8
              else r2.bits_mod_16⟩)
      else .ok (bytes_read, buf, r2)

/-- `Read::read_exact` (std) over `BitReader::read`: repeatedly read into
the unfilled remainder of a `k`-byte buffer, failing with `UnexpectedEof`
when a read returns 0 bytes early.  Fuel `k + 1` suffices because every
continuing iteration delivers at least one byte.  Mirroring the std
implementation with the remainder as a fresh zero buffer is faithful
here: the delivered prefix of each call is exactly what the source
produced. -/
def BitReader.readExactGo : Nat → BitReader → List Nat → Nat →
    Except LzxError (List Nat × BitReader)
  | _, r, acc, 0 => .ok (acc, r)
  | 0, _, _, _ + 1 => .error .assertFailed
  | fuel + 1, r, acc, k + 1 =>
      match BitReader.read (List.replicate (k + 1) 0) r with
      | .error e => .error e
      | .ok (n, buf, r1) =>
        if n = 0 then .error .eof
        else readExactGo fuel r1 (acc ++ buf.take n) (k + 1 - n)

/-- `read_exact` of `k` bytes from a `BitReader`. -/
def BitReader.read_exact (k : Nat) (r : BitReader) :
    Except LzxError (List Nat × BitReader) :=
  BitReader.readExactGo (k + 1) r [] k

/-- `byteorder`: `read_u16::<LittleEndian>` through the `Read` impl of
`BitReader`. -/
def BitReader.read_u16 (r : BitReader) : Except LzxError (Nat × BitReader) :=
  match r.read_exact 2 with
  | .error e => .error e
  | .ok ([a, b], r1) => .ok (a + 256 * b, r1)
  | .ok _ => .error .assertFailed

/-- `byteorder`: `read_u32::<LittleEndian>` through the `Read` impl of
`BitReader`. -/
def BitReader.read_u32 (r : BitReader) : Except LzxError (Nat × BitReader) :=
  match r.read_exact 4 with
  | .error e => .error e
  | .ok ([a, b, c, d], r1) =>
      .ok (a + 256 * b + 65536 * c + 16777216 * d, r1)
  | .ok _ => .error .assertFailed

/-! ## BitWriter (`bits.rs` lines 92-162) -/

/-- State of `BitWriter<W>`: the bytes written to the sink so far plus the
`bit_buffer`/`bits_in_buffer`/`extra_byte` fields (`bits.rs` lines 92-97). -/
structure BitWriter where
  output : List Nat
  bit_buffer : Nat
  bits_in_buffer : Nat
  extra_byte : Bool
  deriving DecidableEq, Repr

/-- `BitWriter::new` (`bits.rs` lines 100-107). -/
def BitWriter.new : BitWriter := ⟨[], 0, 0, false⟩

/-- `BitWriter::fill_extra_byte` (`bits.rs` lines 119-125); writing one
byte to a `Vec` sink cannot fail. -/
def BitWriter.fill_extra_byte (w : BitWriter) : BitWriter :=
  if w.extra_byte then ⟨w.output ++ [0], w.bit_buffer, w.bits_in_buffer, false⟩
  else w

/-- The `while self.bits_in_buffer >= 16` flush loop of
`BitWriter::write_bits` (`bits.rs` lines 135-140).  `next` is the
`as u16` cast of `bit_buffer >> 48`, written to the sink little-endian.
Fuel 3 is never exhausted: `write_bits` enters the loop with at most
15 + 31 bits buffered. -/
def BitWriter.flushLoop : Nat → BitWriter → Except LzxError BitWriter
  | 0, w =>
      if 16 ≤ w.bits_in_buffer then .error .assertFailed else .ok w
  | fuel + 1, w =>
      if 16 ≤ w.bits_in_buffer then
        flushLoop fuel
          ⟨w.output ++ [w.bit_buffer / 2 ^ 48 % 2 ^ 16 % 256,
                        w.bit_buffer / 2 ^ 48 % 2 ^ 16 / 256],
           w.bit_buffer * 2 ^ 16 % 2 ^ 64,
           w.bits_in_buffer - 16, w.extra_byte⟩
      else .ok w

/-- `BitWriter::write_bits` (`bits.rs` lines 127-142).  In a debug build
`debug_assert_eq!(bits >> num_bits, 0)` itself panics when
`num_bits = 32` (shift by 32 on a `u32`), and the placement shift
`(bits as u64) << (64 - num_bits - bits_in_buffer)` is out of range when
`num_bits + bits_in_buffer = 0`. -/
def BitWriter.write_bits (num_bits bits : Nat) (w : BitWriter) :
    Except LzxError BitWriter :=
  let w := w.fill_extra_byte
  if ¬ num_bits ≤ 32 then .error .assertFailed
  else if ¬ w.bits_in_buffer < 16 then .error .assertFailed
  else if num_bits = 32 then .error .assertFailed
  else if ¬ bits / 2 ^ num_bits = 0 then .error .assertFailed
  else if num_bits + w.bits_in_buffer = 0 then .error .assertFailed
  else
    BitWriter.flushLoop 3
      ⟨w.output,
       w.bit_buffer ||| bits * 2 ^ (64 - num_bits - w.bits_in_buffer),
       w.bits_in_buffer + num_bits, w.extra_byte⟩

/-- `BitWriter::purge_bit_buffer` (`bits.rs` lines 109-117). -/
def BitWriter.purge_bit_buffer (w : BitWriter) : Except LzxError BitWriter :=
  if ¬ w.bits_in_buffer < 16 then .error .assertFailed
  else
    match (if w.bits_in_buffer ≠ 0
           then w.write_bits (16 - w.bits_in_buffer) 0
           else .ok w) with
    | .error e => .error e
    | .ok w1 =>
        if w1.bits_in_buffer ≠ 0 then .error .assertFailed else .ok w1

/-- `BitWriter::align_to_16` (`bits.rs` lines 144-148). -/
def BitWriter.align_to_16 (w : BitWriter) : Except LzxError BitWriter :=
  match w.purge_bit_buffer with
  | .error e => .error e
  | .ok w1 => .ok w1.fill_extra_byte

/-- `<BitWriter as Write>::write` (`bits.rs` lines 151-159): purge the bit
buffer, forward the bytes to the sink (a `Vec` accepts them all), and
toggle `extra_byte` when the count was odd. -/
def BitWriter.write (buf : List Nat) (w : BitWriter) :
    Except LzxError BitWriter :=
  match w.purge_bit_buffer with
  | .error e => .error e
  | .ok w1 =>
      .ok ⟨w1.output ++ buf, w1.bit_buffer, w1.bits_in_buffer,
           if buf.length % 2 = 1 then !w1.extra_byte else w1.extra_byte⟩

/-- `byteorder`: `write_u16::<LittleEndian>` through the `Write` impl of
`BitWriter` (value cast `as u16`). -/
def BitWriter.write_u16 (v : Nat) (w : BitWriter) : Except LzxError BitWriter :=
  w.write [v % 2 ^ 16 % 256, v % 2 ^ 16 / 256]

/-- `byteorder`: `write_u32::<LittleEndian>` through the `Write` impl of
`BitWriter` (value cast `as u32`). -/
def BitWriter.write_u32 (v : Nat) (w : BitWriter) : Except LzxError BitWriter :=
  w.write [v % 2 ^ 32 % 256, v % 2 ^ 32 / 256 % 256,
           v % 2 ^ 32 / 65536 % 256, v % 2 ^ 32 / 16777216]

/-! ## BlockType (`btype.rs`) -/

/-- `BlockType` (`btype.rs` lines 5-10). -/
inductive BlockType where
  | Verbatim
  | AlignedOffset
  | Uncompressed
  deriving DecidableEq, Repr

/-- `BlockType::from_bits` (`btype.rs` lines 13-20). -/
def BlockType.from_bits (bits : Nat) : Except LzxError BlockType :=
  match bits with
  | 1 => .ok .Verbatim
  | 2 => .ok .AlignedOffset
  | 3 => .ok .Uncompressed
  | _ => .error .invalidData

/-- `BlockType::to_bits` (`btype.rs` lines 22-28). -/
def BlockType.to_bits : BlockType → Nat
  | .Verbatim => 1
  | .AlignedOffset => 2
  | .Uncompressed => 3

/-! ## Decoder (`decoder.rs`) -/

/-- State of `Decoder<R>` (`decoder.rs` lines 13-23). -/
structure Decoder where
  reader : BitReader
  total_uncompressed_bytes_remaining : Nat
  chunk_compressed_bytes_remaining : Nat
  chunk_uncompressed_bytes_remaining : Nat
  header_filesize : Nat
  block_type : BlockType
  block_uncompressed_bytes_remaining : Nat
  recent : Nat × Nat × Nat
  window : List Nat
  deriving DecidableEq, Repr

/-- `Decoder::new` (`decoder.rs` lines 34-59).  The first `u16` chunk
header is read from the raw source before it is wrapped in a `BitReader`
(a two-byte `read_exact`, so fewer than two input bytes is
`UnexpectedEof`). -/
def Decoder.new (input : List Nat) (window uncompressed_size : Nat) :
    Except LzxError Decoder :=
  if window < WINDOW_MIN ∨ WINDOW_MAX < window then .error .invalidInput
  else
    match input with
    | b0 :: b1 :: rest =>
      match BitReader.read_bits 1 (BitReader.new rest) with
      | .error e => .error e
      | .ok (flag, r1) =>
        if flag ≠ 0 then
          match r1.read_bits 32 with
          | .error e => .error e
          | .ok (fs, r2) =>
              .ok ⟨r2, uncompressed_size, b0 + 256 * b1,
                   min uncompressed_size CHUNK_SIZE, fs, .Verbatim, 0,
                   (0, 0, 0), List.replicate (2 ^ window) 0⟩
        else
          .ok ⟨r1, uncompressed_size, b0 + 256 * b1,
               min uncompressed_size CHUNK_SIZE, 0, .Verbatim, 0,
               (0, 0, 0), List.replicate (2 ^ window) 0⟩
    | _ => .error .eof

/-- The `while self.block_uncompressed_bytes_remaining == 0` block-header
loop of `<Decoder as Read>::read` (`decoder.rs` lines 77-99).
`unimplemented!()` for the Verbatim and AlignedOffset bodies is a
panic. -/
def Decoder.blockLoop : Nat → Decoder → Except LzxError Decoder
  | 0, d =>
      if d.block_uncompressed_bytes_remaining = 0 then .error .assertFailed
      else .ok d
  | fuel + 1, d =>
      if d.block_uncompressed_bytes_remaining = 0 then
        match (if d.block_type = .Uncompressed then d.reader.align_to_16
               else .ok d.reader) with
        | .error e => .error e
        | .ok r1 =>
          match r1.read_bits 3 with
          | .error e => .error e
          | .ok (code, r2) =>
            match BlockType.from_bits code with
            | .error e => .error e
            | .ok bt =>
              match r2.read_bits 24 with
              | .error e => .error e
              | .ok (blen, r3) =>
                match bt with
                | .Verbatim => .error .assertFailed
                | .AlignedOffset => .error .assertFailed
                | .Uncompressed =>
                  match r3.read_bits 1 with
                  | .error e => .error e
                  | .ok (_, r4) =>
                    match r4.align_to_16 with
                    | .error e => .error e
                    | .ok r5 =>
                      match r5.read_u32 with
                      | .error e => .error e
                      | .ok (v0, r6) =>
                        match r6.read_u32 with
                        | .error e => .error e
                        | .ok (v1, r7) =>
                          match r7.read_u32 with
                          | .error e => .error e
                          | .ok (v2, r8) =>
                            blockLoop fuel
                              { d with
                                reader := r8
                                block_type := bt
                                block_uncompressed_bytes_remaining := blen
                                recent := (v0, v1, v2) }
      else .ok d

/-- The outer `while` loop of `<Decoder as Read>::read` (`decoder.rs`
lines 63-118), producing at most `bufLen` bytes.  `acc` is the output
written so far (`bytes_read = acc.length`). -/
def Decoder.readGo : Nat → Decoder → Nat → List Nat →
    Except LzxError (List Nat × Decoder)
  | 0, d, bufLen, acc =>
      if 0 < d.total_uncompressed_bytes_remaining ∧ acc.length < bufLen then
        .error .assertFailed
      else .ok (acc, d)
  | fuel + 1, d, bufLen, acc =>
      if 0 < d.total_uncompressed_bytes_remaining ∧ acc.length < bufLen then
        match (if d.chunk_uncompressed_bytes_remaining = 0 then
                 match d.reader.align_to_16 with
                 | .error e => (.error e : Except LzxError Decoder)
                 | .ok r1 =>
                   match r1.read_u16 with
                   | .error e => .error e
                   | .ok (cs, r2) =>
                       .ok { d with
                             reader := r2
                             chunk_compressed_bytes_remaining := cs
                             chunk_uncompressed_bytes_remaining :=
                               min d.total_uncompressed_bytes_remaining
                                 CHUNK_SIZE }
               else .ok d) with
        | .error e => .error e
        | .ok d1 =>
          match Decoder.blockLoop (fuel + 1) d1 with
          | .error e => .error e
          | .ok d2 =>
            let bytes_to_read :=
              min (min d2.block_uncompressed_bytes_remaining
                     d2.chunk_uncompressed_bytes_remaining)
                (bufLen - acc.length)
            if bytes_to_read = 0 then .error .assertFailed
            else
              match d2.block_type with
              | .Verbatim => .error .assertFailed
              | .AlignedOffset => .error .assertFailed
              | .Uncompressed =>
                match d2.reader.read_exact bytes_to_read with
                | .error e => .error e
                | .ok (bytes, r3) =>
                  readGo fuel
                    { d2 with
                      reader := r3
                      block_uncompressed_bytes_remaining :=
                        d2.block_uncompressed_bytes_remaining - bytes_to_read
                      chunk_uncompressed_bytes_remaining :=
                        d2.chunk_uncompressed_bytes_remaining - bytes_to_read
                      total_uncompressed_bytes_remaining :=
                        d2.total_uncompressed_bytes_remaining - bytes_to_read }
                    bufLen (acc ++ bytes)
      else .ok (acc, d)

/-- One call of `<Decoder as Read>::read` with a `bufLen`-byte output
buffer. -/
def Decoder.read (d : Decoder) (bufLen fuel : Nat) :
    Except LzxError (List Nat × Decoder) :=
  Decoder.readGo fuel d bufLen []

/-! ## Encoder (`encoder.rs`) -/

/-- State of `Encoder<W>` (`encoder.rs` lines 10-15). -/
structure Encoder where
  writer : BitWriter
  wrote_header : Bool
  total_uncompressed_bytes_remaining : Nat
  chunk_buffer : List Nat
  deriving DecidableEq, Repr

/-- `Encoder::new` (`encoder.rs` lines 26-38). -/
def Encoder.new (window uncompressed_size : Nat) : Except LzxError Encoder :=
  if window < WINDOW_MIN ∨ WINDOW_MAX < window then .error .invalidInput
  else .ok ⟨BitWriter.new, false, uncompressed_size, []⟩

/-- The writer effects of `Encoder::emit_chunk` (`encoder.rs` lines
45-62): the chunk header, the block header, the three offset words, the
chunk bytes and the final alignment. -/
def Encoder.emitChunkWriter (wrote_header : Bool) (c : List Nat)
    (w : BitWriter) : Except LzxError BitWriter :=
  let chunk_compressed_size := 16 + c.length + c.length % 2
  match w.align_to_16 with
  | .error e => .error e
  | .ok w1 =>
    match w1.write_u16 chunk_compressed_size with
    | .error e => .error e
    | .ok w2 =>
      match (if wrote_header then .ok w2 else w2.write_bits 1 0) with
      | .error e => .error e
      | .ok w3 =>
        match w3.write_bits 3 BlockType.Uncompressed.to_bits with
        | .error e => .error e
        | .ok w4 =>
          match w4.write_bits 24 (c.length % 2 ^ 32) with
          | .error e => .error e
          | .ok w5 =>
            match w5.write_bits 1 0 with
            | .error e => .error e
            | .ok w6 =>
              match w6.align_to_16 with
              | .error e => .error e
              | .ok w7 =>
                match w7.write_u32 1 with
                | .error e => .error e
                | .ok w8 =>
                  match w8.write_u32 1 with
                  | .error e => .error e
                  | .ok w9 =>
                    match w9.write_u32 1 with
                    | .error e => .error e
                    | .ok w10 =>
                      match w10.write c with
                      | .error e => .error e
                      | .ok w11 => w11.align_to_16

/-- `Encoder::emit_chunk` (`encoder.rs` lines 40-66), including its three
`debug_assert!`s; afterwards `wrote_header` is true and the chunk buffer
is cleared. -/
def Encoder.emit_chunk (e : Encoder) : Except LzxError Encoder :=
  if e.chunk_buffer.isEmpty then .error .assertFailed
  else if ¬ e.chunk_buffer.length ≤ CHUNK_SIZE then .error .assertFailed
  else if ¬ (e.chunk_buffer.length = CHUNK_SIZE ∨
             e.total_uncompressed_bytes_remaining = 0) then .error .assertFailed
  else
    match Encoder.emitChunkWriter e.wrote_header e.chunk_buffer e.writer with
    | .error e => .error e
    | .ok w =>
        .ok { e with writer := w, wrote_header := true, chunk_buffer := [] }

/-- The main loop of `<Encoder as Write>::write` (`encoder.rs` lines
70-95) followed by the trailing `emit_chunk` check.  `remaining` is the
unconsumed suffix `buf[bytes_written..]` of the caller's buffer. -/
def Encoder.writeGo : Nat → Encoder → List Nat → Nat →
    Except LzxError (Nat × Encoder)
  | 0, e, remaining, bytes_written =>
      if 0 < e.total_uncompressed_bytes_remaining ∧ remaining ≠ [] then
        .error .assertFailed
      else
        match (if e.total_uncompressed_bytes_remaining = 0 ∧
                  ¬ e.chunk_buffer.isEmpty
               then e.emit_chunk else .ok e) with
        | .error e => .error e
        | .ok e1 => .ok (bytes_written, e1)
  | fuel + 1, e, remaining, bytes_written =>
      if 0 < e.total_uncompressed_bytes_remaining ∧ remaining ≠ [] then
        if ¬ e.chunk_buffer.length < CHUNK_SIZE then .error .assertFailed
        else
          let num_bytes :=
            min (min e.total_uncompressed_bytes_remaining
                   (CHUNK_SIZE - e.chunk_buffer.length))
              remaining.length
          let e1 : Encoder :=
            { e with
              chunk_buffer := e.chunk_buffer ++ remaining.take num_bytes
              total_uncompressed_bytes_remaining :=
                e.total_uncompressed_bytes_remaining - num_bytes }
          if ¬ e1.chunk_buffer.length ≤ CHUNK_SIZE then .error .assertFailed
          else
            match (if e1.chunk_buffer.length = CHUNK_SIZE then e1.emit_chunk
                   else .ok e1) with
            | .error e => .error e
            | .ok e2 =>
                writeGo fuel e2 (remaining.drop num_bytes)
                  (bytes_written + num_bytes)
      else
        match (if e.total_uncompressed_bytes_remaining = 0 ∧
                  ¬ e.chunk_buffer.isEmpty
               then e.emit_chunk else .ok e) with
        | .error e => .error e
        | .ok e1 => .ok (bytes_written, e1)

/-- One call of `<Encoder as Write>::write`. -/
def Encoder.write (e : Encoder) (buf : List Nat) :
    Except LzxError (Nat × Encoder) :=
  Encoder.writeGo (buf.length + 1) e buf 0

/-! ## Whole-stream wrappers -/

/-- Compress `data` in one `write` call through an `Encoder` built with
the given window and `uncompressed_size`, returning all bytes written to
the sink. -/
def encodeBytes (window uncompressed_size : Nat) (data : List Nat) :
    Except LzxError (List Nat) :=
  match Encoder.new window uncompressed_size with
  | .error e => .error e
  | .ok e =>
    match e.write data with
    | .error err => .error err
    | .ok (_, e1) => .ok e1.writer.output

/-- Decompress a whole stream: build a `Decoder` and issue one `read`
with an `uncompressed_size`-byte buffer (ample fuel). -/
def decodeBytes (window uncompressed_size : Nat) (input : List Nat) :
    Except LzxError (List Nat) :=
  match Decoder.new input window uncompressed_size with
  | .error e => .error e
  | .ok d =>
    match d.read uncompressed_size (uncompressed_size + 2) with
    | .error e => .error e
    | .ok (out, _) => .ok out

/-! ## The byte-level form of an emitted chunk -/

/-- The exact bytes `emit_chunk` appends to the sink for a chunk with
contents `c`: the 16-bit compressed-size header, the two 16-bit words of
the bit-packed block header (with the leading stream-header flag bit on
the first chunk only), the three little-endian `u32` recent-offset words,
the raw chunk bytes, and a zero pad byte when the chunk length is odd. -/
def chunkBytes (first : Bool) (c : List Nat) : List Nat :=
  [(16 + c.length + c.length % 2) % 256, (16 + c.length + c.length % 2) / 256] ++
  (if first then
     [(12288 + c.length / 4096) % 256, (12288 + c.length / 4096) / 256,
      c.length % 4096 * 16 % 256, c.length % 4096 * 16 / 256]
   else
     [(24576 + c.length / 2048) % 256, (24576 + c.length / 2048) / 256,
      c.length % 2048 * 32 % 256, c.length % 2048 * 32 / 256]) ++
  [1, 0, 0, 0, 1, 0, 0, 0, 1, 0, 0, 0] ++ c ++
  (if c.length % 2 = 1 then [0] else [])

/-! ## Concrete streams and states used by the claims -/

/-- The reference byte vector for compressing `b"abc"` with window 15
(the `encode_tiny_stream` / `decode_stream_with_one_uncompressed_block`
test vector). -/
def abcStream : List Nat :=
  [0x14, 0x00, 0x00, 0x30, 0x30, 0x00, 0x01, 0x00, 0x00, 0x00, 0x01,
   0x00, 0x00, 0x00, 0x01, 0x00, 0x00, 0x00, 0x61, 0x62, 0x63, 0x00]

/-- The `recent` triple produced by a successful `Decoder::new`. -/
def recentAfterNew (input : List Nat) (window size : Nat) :
    Except LzxError (Nat × Nat × Nat) :=
  (Decoder.new input window size).map (fun d => d.recent)

/-- The state of `Decoder::new abcStream 15 3` (its bit buffer holds the
15 still-unread bits of the first header word `0x3000`). -/
def abcDecoder : Decoder :=
  ⟨⟨[0x30, 0x00, 1, 0, 0, 0, 1, 0, 0, 0, 1, 0, 0, 0, 0x61, 0x62, 0x63, 0x00],
    3 * 2 ^ 61, 15, 1⟩,
   3, 0x14, 3, 0, .Verbatim, 0, (0, 0, 0), List.replicate 32768 0⟩

/-- Write a list of `(width, value)` pairs through `write_bits`, in
order. -/
def writePairs : List (Nat × Nat) → BitWriter → Except LzxError BitWriter
  | [], w => .ok w
  | (n, v) :: rest, w =>
    match w.write_bits n v with
    | .error e => .error e
    | .ok w1 => writePairs rest w1

/-- Read a list of widths through `read_bits`, in order, collecting the
values. -/
def readWidths : List Nat → BitReader → Except LzxError (List Nat)
  | [], _ => .ok []
  | n :: rest, r =>
    match r.read_bits n with
    | .error e => .error e
    | .ok (v, r1) =>
      match readWidths rest r1 with
      | .error e => .error e
      | .ok vs => .ok (v :: vs)

/-- The bit round-trip of §8 of the spec: write the pairs through a
`BitWriter`, pad to a word boundary, and read the same widths back from
the produced bytes through a `BitReader`. -/
def bitRoundTrip (pairs : List (Nat × Nat)) : Except LzxError (List Nat) :=
  match writePairs pairs BitWriter.new with
  | .error e => .error e
  | .ok w =>
    match w.align_to_16 with
    | .error e => .error e
    | .ok w1 => readWidths (pairs.map Prod.fst) (BitReader.new w1.output)

/-! ## Bit-stream semantics for the round-trip of claim C3 -/

/-- Total width of a list of (width, value) pairs. -/
def sBits : List (Nat × Nat) → Nat
  | [] => 0
  | (n, _) :: rest => n + sBits rest

/-- Big-endian concatenation value of a list of (width, value) pairs. -/
def sVal : List (Nat × Nat) → Nat
  | [] => 0
  | (_, v) :: rest => v * 2 ^ sBits rest + sVal rest

/-- Chop a `t`-bit value (`t` a multiple of 16) into 16-bit words, most
significant word first, each word as two little-endian bytes. -/
def wordsOf : Nat → Nat → List Nat
  | t + 16, x => x / 2 ^ t % 256 :: x / 2 ^ t / 256 :: wordsOf t (x % 2 ^ t)
  | _, _ => []

/-! ## Arithmetic helpers

The bit buffers keep their `b` valid bits in the top of a 64-bit word:
a buffer state is canonically `V * 2 ^ (64 - b)` with `V < 2 ^ b`.  The
lemmas below evaluate the primitive reader/writer operations on states in
this canonical form. -/

theorem lor_eq_add {k a b : Nat} (ha : a % 2 ^ k = 0) (hb : b < 2 ^ k) :
    a ||| b = a + b := by
  obtain ⟨q, rfl⟩ := Nat.dvd_of_mod_eq_zero ha
  apply Nat.eq_of_testBit_eq
  intro i
  rw [Nat.testBit_or, Nat.testBit_mul_pow_two_add q hb i,
    Nat.testBit_mul_pow_two]
  rcases Nat.lt_or_ge i k with h | h
  · simp [h, Nat.not_le_of_lt h]
  · have hbi : b.testBit i = false :=
      Nat.testBit_lt_two_pow (lt_of_lt_of_le hb (Nat.pow_le_pow_right (by norm_num) h))
    simp [h, Nat.not_lt_of_le h, hbi]

theorem canon_div {V b n : Nat} (hb : b ≤ 64) (hn : n ≤ b) :
    V * 2 ^ (64 - b) / 2 ^ (64 - n) = V / 2 ^ (b - n) := by
  have h : (64 : Nat) - n = (64 - b) + (b - n) := by omega
  rw [h, pow_add, ← Nat.div_div_eq_div_mul,
    Nat.mul_div_cancel _ (Nat.pos_pow_of_pos _ (by norm_num))]

theorem canon_mod_shift {V b n : Nat} (hb : b ≤ 64) (hn : n ≤ b) :
    V * 2 ^ (64 - b) * 2 ^ n % 2 ^ 64 = V % 2 ^ (b - n) * 2 ^ (64 - (b - n)) := by
  have h1 : V * 2 ^ (64 - b) * 2 ^ n = V * 2 ^ (64 - (b - n)) := by
    rw [mul_assoc, ← pow_add]
    congr 2
    omega
  have h2 : (2 : Nat) ^ 64 = 2 ^ (b - n) * 2 ^ (64 - (b - n)) := by
    rw [← pow_add]
    congr 1
    omega
  rw [h1, h2, Nat.mul_mod_mul_right]

theorem canon_val_lt {V b n : Nat} (hV : V < 2 ^ b) (hn : n ≤ b) :
    V / 2 ^ (b - n) < 2 ^ n := by
  apply Nat.div_lt_of_lt_mul
  calc V < 2 ^ b := hV
    _ = 2 ^ (b - n) * 2 ^ n := by rw [← pow_add]; congr 1; omega

theorem canon_val_mod32 {V b n : Nat} (hV : V < 2 ^ b) (hn : n ≤ b)
    (h32 : n ≤ 32) : V / 2 ^ (b - n) % 2 ^ 32 = V / 2 ^ (b - n) :=
  Nat.mod_eq_of_lt (lt_of_lt_of_le (canon_val_lt hV hn)
    (Nat.pow_le_pow_right (by norm_num) h32))


/-! ## Evaluation lemmas for the BitReader primitives -/

/-- `ensure_buffer_has_at_least` is the identity when the buffer already
holds enough bits. -/
theorem ensure_no_refill {inp : List Nat} {bb b m n : Nat}
    (h48 : n ≤ 48) (hn : n ≤ b) :
    BitReader.ensure_buffer_has_at_least n ⟨inp, bb, b, m⟩ =
      .ok ⟨inp, bb, b, m⟩ := by
  unfold BitReader.ensure_buffer_has_at_least
  dsimp only
  rw [if_neg (by omega), if_neg (by omega)]

/-- `ensure_buffer_has_at_least` on a canonical short buffer pulls one
little-endian word and appends its 16 bits. -/
theorem ensure_refill {inp : List Nat} {V b m n x0 x1 : Nat}
    (h48 : n ≤ 48) (hbn : b < n) (hx0 : x0 < 256)
    (hx1 : x1 < 256) :
    BitReader.ensure_buffer_has_at_least n
        ⟨x0 :: x1 :: inp, V * 2 ^ (64 - b), b, m⟩ =
      .ok ⟨inp, (V * 2 ^ 16 + (x0 + 256 * x1)) * 2 ^ (64 - (b + 16)),
           b + 16, m⟩ := by
  unfold BitReader.ensure_buffer_has_at_least
  dsimp only
  rw [if_neg (by omega), if_pos hbn]
  have hlor : V * 2 ^ (64 - b) ||| (x0 + 256 * x1) * 2 ^ (48 - b) =
      V * 2 ^ (64 - b) + (x0 + 256 * x1) * 2 ^ (48 - b) := by
    apply lor_eq_add (k := 64 - b) (Nat.mul_mod_left _ _)
    have hw : x0 + 256 * x1 < 2 ^ 16 := by omega
    calc (x0 + 256 * x1) * 2 ^ (48 - b) < 2 ^ 16 * 2 ^ (48 - b) :=
          mul_lt_mul_of_pos_right hw (Nat.two_pow_pos _)
      _ = 2 ^ (64 - b) := by rw [← pow_add]; congr 1; omega
  have hsum : V * 2 ^ (64 - b) + (x0 + 256 * x1) * 2 ^ (48 - b) =
      (V * 2 ^ 16 + (x0 + 256 * x1)) * 2 ^ (64 - (b + 16)) := by
    have h1 : (64 : Nat) - b = 16 + (64 - (b + 16)) := by omega
    have h2 : (48 : Nat) - b = 64 - (b + 16) := by omega
    rw [h1, h2, pow_add]
    ring
  rw [hlor, hsum]

/-- `read_bits` on a canonical state holding at least `n` bits: no word is
pulled; the value is the top `n` buffered bits. -/
theorem read_bits_no_refill {inp : List Nat} {V b m n : Nat}
    (hV : V < 2 ^ b) (hb : b ≤ 63) (h1 : 1 ≤ n) (h32 : n ≤ 32) (hn : n ≤ b) :
    BitReader.read_bits n ⟨inp, V * 2 ^ (64 - b), b, m⟩ =
      .ok (V / 2 ^ (b - n),
           ⟨inp, V % 2 ^ (b - n) * 2 ^ (64 - (b - n)), b - n, (m + n) % 16⟩) := by
  unfold BitReader.read_bits
  rw [if_neg (by omega), ensure_no_refill (by omega) hn]
  dsimp only
  rw [if_neg (by omega : ¬ ¬ n ≤ b), if_neg (by omega : ¬ n = 0)]
  rw [canon_div (by omega) hn, canon_mod_shift (by omega) hn,
    canon_val_mod32 hV hn h32]

/-- `read_bits` on a canonical short state: exactly one word is pulled and
then the top `n` bits of the extended buffer are consumed. -/
theorem read_bits_refill {inp : List Nat} {V b m n x0 x1 : Nat}
    (hV : V < 2 ^ b) (h1 : 1 ≤ n) (h32 : n ≤ 32) (hbn : b < n)
    (hn16 : n ≤ b + 16) (hx0 : x0 < 256) (hx1 : x1 < 256) :
    BitReader.read_bits n ⟨x0 :: x1 :: inp, V * 2 ^ (64 - b), b, m⟩ =
      .ok ((V * 2 ^ 16 + (x0 + 256 * x1)) / 2 ^ (b + 16 - n),
           ⟨inp, (V * 2 ^ 16 + (x0 + 256 * x1)) % 2 ^ (b + 16 - n) *
                   2 ^ (64 - (b + 16 - n)),
            b + 16 - n, (m + n) % 16⟩) := by
  have hw : x0 + 256 * x1 < 2 ^ 16 := by omega
  have hV1 : V * 2 ^ 16 + (x0 + 256 * x1) < 2 ^ (b + 16) := by
    calc V * 2 ^ 16 + (x0 + 256 * x1) < V * 2 ^ 16 + 2 ^ 16 := by omega
      _ = (V + 1) * 2 ^ 16 := by ring
      _ ≤ 2 ^ b * 2 ^ 16 := Nat.mul_le_mul_right _ (by omega)
      _ = 2 ^ (b + 16) := by rw [← pow_add]
  unfold BitReader.read_bits
  rw [if_neg (by omega), ensure_refill (by omega) hbn hx0 hx1]
  dsimp only
  rw [if_neg (by omega : ¬ ¬ n ≤ b + 16), if_neg (by omega : ¬ n = 0)]
  rw [canon_div (by omega) hn16, canon_mod_shift (by omega) hn16,
    canon_val_mod32 hV1 hn16 h32]

/-- `read_bits` fails with the I/O error exactly when the buffer is short
and the source lacks a whole word. -/
theorem read_bits_eof {inp : List Nat} {bb b m n : Nat}
    (h32 : n ≤ 32) (hbn : b < n) (hshort : inp.length ≤ 1) :
    BitReader.read_bits n ⟨inp, bb, b, m⟩ = .error .eof := by
  unfold BitReader.read_bits BitReader.ensure_buffer_has_at_least
  dsimp only
  rw [if_neg (by omega), if_neg (by omega), if_pos hbn]
  match inp, hshort with
  | [], _ => rfl
  | [x], _ => rfl

/-- `align_to_8` is a no-op on a byte-aligned reader. -/
theorem align8_noop {inp : List Nat} {bb b m : Nat} (hm : m % 8 = 0)
    (hb : b % 8 = 0) :
    BitReader.align_to_8 ⟨inp, bb, b, m⟩ = .ok ⟨inp, bb, b, m⟩ := by
  unfold BitReader.align_to_8
  dsimp only
  rw [if_neg (by omega)]
  dsimp only
  rw [if_neg (by omega)]

/-- `align_to_16` is a no-op on a word-aligned reader. -/
theorem align16_noop {inp : List Nat} {bb b m : Nat} (hm : m = 0)
    (hb : b % 16 = 0) :
    BitReader.align_to_16 ⟨inp, bb, b, m⟩ = .ok ⟨inp, bb, b, m⟩ := by
  unfold BitReader.align_to_16
  dsimp only
  rw [if_neg (by omega)]
  dsimp only
  rw [if_neg (by omega)]

/-- The drain loop exits at once when the bit buffer is empty. -/
theorem drainLoop_empty {fuel bytes_read : Nat} {buf inp : List Nat}
    {bb m : Nat} :
    BitReader.drainLoop fuel buf bytes_read ⟨inp, bb, 0, m⟩ =
      .ok (buf, bytes_read, ⟨inp, bb, 0, m⟩) := by
  cases fuel <;> (unfold BitReader.drainLoop; rw [if_neg (by simp)])

/-- A `Read::read` through the `BitReader` with an empty bit buffer and a
byte-aligned position is a direct read from the source. -/
theorem read_direct {buf inp : List Nat} {bb m : Nat} (hm : m % 8 = 0)
    (hbuf : 0 < buf.length) :
    BitReader.read buf ⟨inp, bb, 0, m⟩ =
      .ok (min buf.length inp.length,
           inp.take (min buf.length inp.length) ++
             buf.drop (min buf.length inp.length),
           ⟨inp.drop (min buf.length inp.length), bb, 0,
            if min buf.length inp.length % 2 = 1 then m ^^^ 8 else m⟩) := by
  unfold BitReader.read
  rw [align8_noop hm (by omega)]
  dsimp only
  rw [drainLoop_empty]
  dsimp only
  rw [if_pos hbuf]
  simp

/-- `read_exact` of `k` available bytes from an empty-buffer, byte-aligned
reader delivers exactly the next `k` source bytes. -/
theorem read_exact_direct {inp : List Nat} {bb m k : Nat} (hm : m % 8 = 0)
    (hk : k ≤ inp.length) :
    BitReader.read_exact k ⟨inp, bb, 0, m⟩ =
      .ok (inp.take k,
           ⟨inp.drop k, bb, 0, if k % 2 = 1 then m ^^^ 8 else m⟩) := by
  match k with
  | 0 =>
    unfold BitReader.read_exact BitReader.readExactGo
    simp
  | k + 1 =>
    unfold BitReader.read_exact BitReader.readExactGo
    rw [read_direct hm (by simp)]
    have hmin : min (List.replicate (k + 1) (0 : Nat)).length inp.length
        = k + 1 := by
      simp only [List.length_replicate]
      omega
    rw [hmin]
    dsimp only
    rw [if_neg (by omega : ¬ k + 1 = 0)]
    have hdrop : (List.replicate (k + 1) (0 : Nat)).drop (k + 1) = [] := by
      simp
    rw [hdrop, List.append_nil, List.nil_append]
    have htake : (inp.take (k + 1)).take (k + 1) = inp.take (k + 1) := by
      rw [List.take_take, min_self]
    rw [htake, Nat.sub_self]
    unfold BitReader.readExactGo
    rfl

/-! ## Evaluation lemmas for the BitWriter primitives -/

theorem canon_val_lt16 {V b : Nat} (hV : V < 2 ^ b) (hb : 16 ≤ b) :
    V / 2 ^ (b - 16) < 2 ^ 16 :=
  canon_val_lt hV hb

/-- Placing `v` in the top of the buffer below the `b` bits already
there. -/
theorem place_bits {V b n v : Nat} (hv : v < 2 ^ n)
    (hbn : b + n ≤ 63) :
    V * 2 ^ (64 - b) ||| v * 2 ^ (64 - n - b) =
      (V * 2 ^ n + v) * 2 ^ (64 - (b + n)) := by
  have hlor : V * 2 ^ (64 - b) ||| v * 2 ^ (64 - n - b) =
      V * 2 ^ (64 - b) + v * 2 ^ (64 - n - b) := by
    apply lor_eq_add (k := 64 - b) (Nat.mul_mod_left _ _)
    calc v * 2 ^ (64 - n - b) < 2 ^ n * 2 ^ (64 - n - b) :=
          mul_lt_mul_of_pos_right hv (Nat.two_pow_pos _)
      _ = 2 ^ (64 - b) := by rw [← pow_add]; congr 1; omega
  rw [hlor]
  have h1 : (64 : Nat) - b = n + (64 - (b + n)) := by omega
  have h2 : (64 : Nat) - n - b = 64 - (b + n) := by omega
  rw [h1, h2, pow_add]
  ring

/-- `write_bits` when the `n` new bits still fit below 16 buffered bits:
nothing is flushed. -/
theorem write_bits_noflush {out : List Nat} {V b n v : Nat}
    (h1 : 1 ≤ n) (hbn : b + n < 16) (hv : v < 2 ^ n) :
    BitWriter.write_bits n v ⟨out, V * 2 ^ (64 - b), b, false⟩ =
      .ok ⟨out, (V * 2 ^ n + v) * 2 ^ (64 - (b + n)), b + n, false⟩ := by
  unfold BitWriter.write_bits
  simp only [BitWriter.fill_extra_byte, if_neg (by simp : ¬ (false = true))]
  rw [if_neg (by omega), if_neg (by omega), if_neg (by omega),
    if_neg (by simp [Nat.div_eq_of_lt hv]), if_neg (by omega),
    place_bits hv (by omega)]
  unfold BitWriter.flushLoop
  rw [if_neg (by dsimp only; omega)]

/-- `write_bits` when the `n` new bits carry the buffer to between 16 and
31 bits: exactly one little-endian word is flushed. -/
theorem write_bits_flush1 {out : List Nat} {V b n v : Nat}
    (hV : V < 2 ^ b) (h1 : 1 ≤ n) (hb : b ≤ 15) (hn : n ≤ 31)
    (h16 : 16 ≤ b + n) (h32 : b + n < 32) (hv : v < 2 ^ n) :
    BitWriter.write_bits n v ⟨out, V * 2 ^ (64 - b), b, false⟩ =
      .ok ⟨out ++ [(V * 2 ^ n + v) / 2 ^ (b + n - 16) % 256,
                   (V * 2 ^ n + v) / 2 ^ (b + n - 16) / 256],
           (V * 2 ^ n + v) % 2 ^ (b + n - 16) * 2 ^ (64 - (b + n - 16)),
           b + n - 16, false⟩ := by
  have hV1 : V * 2 ^ n + v < 2 ^ (b + n) := by
    calc V * 2 ^ n + v < V * 2 ^ n + 2 ^ n := by omega
      _ = (V + 1) * 2 ^ n := by ring
      _ ≤ 2 ^ b * 2 ^ n := Nat.mul_le_mul_right _ (by omega)
      _ = 2 ^ (b + n) := by rw [← pow_add]
  unfold BitWriter.write_bits
  simp only [BitWriter.fill_extra_byte, if_neg (by simp : ¬ (false = true))]
  rw [if_neg (by omega), if_neg (by omega), if_neg (by omega),
    if_neg (by simp [Nat.div_eq_of_lt hv]), if_neg (by omega),
    place_bits hv (by omega)]
  unfold BitWriter.flushLoop
  rw [if_pos (by dsimp only; omega)]
  dsimp only
  rw [canon_div (V := V * 2 ^ n + v) (by omega) h16,
    canon_mod_shift (V := V * 2 ^ n + v) (by omega) h16,
    Nat.mod_eq_of_lt (canon_val_lt16 hV1 h16)]
  unfold BitWriter.flushLoop
  rw [if_neg (by dsimp only; omega)]

/-- `purge_bit_buffer` is the identity on an empty buffer. -/
theorem purge_zero {out : List Nat} :
    BitWriter.purge_bit_buffer ⟨out, 0, 0, false⟩ =
      .ok ⟨out, 0, 0, false⟩ :=
  rfl

/-- `purge_bit_buffer` on a non-empty buffer pads it with zero bits to 16
and flushes that word. -/
theorem purge_pos {out : List Nat} {V b : Nat}
    (hV : V < 2 ^ b) (hb1 : 1 ≤ b) (hb : b ≤ 15) :
    BitWriter.purge_bit_buffer ⟨out, V * 2 ^ (64 - b), b, false⟩ =
      .ok ⟨out ++ [V * 2 ^ (16 - b) % 256, V * 2 ^ (16 - b) / 256],
           0, 0, false⟩ := by
  unfold BitWriter.purge_bit_buffer
  dsimp only
  rw [if_neg (by omega), if_pos (by omega)]
  rw [write_bits_flush1 hV (by omega) hb (by omega) (by omega) (by omega)
    (Nat.two_pow_pos _)]
  have he : b + (16 - b) - 16 = 0 := by omega
  simp [he, Nat.mod_one]

/-- `align_to_16` is the identity on a clean writer. -/
theorem align16w_zero {out : List Nat} :
    BitWriter.align_to_16 ⟨out, 0, 0, false⟩ = .ok ⟨out, 0, 0, false⟩ :=
  rfl

/-- `align_to_16` pads and flushes a non-empty buffer. -/
theorem align16w_pos {out : List Nat} {V b : Nat}
    (hV : V < 2 ^ b) (hb1 : 1 ≤ b) (hb : b ≤ 15) :
    BitWriter.align_to_16 ⟨out, V * 2 ^ (64 - b), b, false⟩ =
      .ok ⟨out ++ [V * 2 ^ (16 - b) % 256, V * 2 ^ (16 - b) / 256],
           0, 0, false⟩ := by
  unfold BitWriter.align_to_16
  rw [purge_pos hV hb1 hb]
  rfl

/-- `align_to_16` after an odd-length raw write emits the pending padding
byte. -/
theorem align16w_extra {out : List Nat} :
    BitWriter.align_to_16 ⟨out, 0, 0, true⟩ = .ok ⟨out ++ [0], 0, 0, false⟩ :=
  rfl

/-- A raw byte write on a clean writer appends the bytes to the sink and
records the length parity in `extra_byte`. -/
theorem write_raw_clean {out buf : List Nat} :
    BitWriter.write buf ⟨out, 0, 0, false⟩ =
      .ok ⟨out ++ buf, 0, 0, if buf.length % 2 = 1 then true else false⟩ := by
  unfold BitWriter.write
  rw [purge_zero]
  dsimp only
  split <;> rfl

/-- `write_u16` on a clean writer appends the two little-endian bytes. -/
theorem write_u16_clean {out : List Nat} {x : Nat} :
    BitWriter.write_u16 x ⟨out, 0, 0, false⟩ =
      .ok ⟨out ++ [x % 2 ^ 16 % 256, x % 2 ^ 16 / 256], 0, 0, false⟩ := by
  unfold BitWriter.write_u16
  rw [write_raw_clean]
  simp

/-- `write_u32` on a clean writer appends the four little-endian bytes. -/
theorem write_u32_clean {out : List Nat} {x : Nat} :
    BitWriter.write_u32 x ⟨out, 0, 0, false⟩ =
      .ok ⟨out ++ [x % 2 ^ 32 % 256, x % 2 ^ 32 / 256 % 256,
                   x % 2 ^ 32 / 65536 % 256, x % 2 ^ 32 / 16777216],
           0, 0, false⟩ := by
  unfold BitWriter.write_u32
  rw [write_raw_clean]
  simp

/-- `write_bits` on a clean writer just places the bits in the buffer. -/
theorem write_bits_clean {out : List Nat} {n v : Nat}
    (h1 : 1 ≤ n) (hn : n ≤ 15) (hv : v < 2 ^ n) :
    BitWriter.write_bits n v ⟨out, 0, 0, false⟩ =
      .ok ⟨out, v * 2 ^ (64 - (0 + n)), 0 + n, false⟩ := by
  have h := @write_bits_noflush out 0 0 n v h1 (by omega) hv
  rw [show (⟨out, 0 * 2 ^ (64 - 0), 0, false⟩ : BitWriter) =
        ⟨out, 0, 0, false⟩ from by norm_num] at h
  rw [show 0 * 2 ^ n + v = v from by omega] at h
  exact h

/-- The writer effects of `emit_chunk` on the first chunk (stream header
bit still unwritten), from a clean writer state. -/
theorem emitChunkWriter_first (out : List Nat) (c : List Nat)
    (hlen : c.length ≤ CHUNK_SIZE) :
    Encoder.emitChunkWriter false c ⟨out, 0, 0, false⟩ =
      .ok ⟨out ++ chunkBytes true c, 0, 0, false⟩ := by
  have hl : c.length ≤ 32768 := hlen
  simp only [Encoder.emitChunkWriter]
  rw [align16w_zero]
  dsimp only
  rw [write_u16_clean]
  dsimp only
  rw [if_neg (by simp)]
  rw [write_bits_clean (by omega) (by omega) (by omega)]
  dsimp only
  rw [show BlockType.Uncompressed.to_bits = 3 from rfl]
  rw [@write_bits_noflush _ 0 (0 + 1) 3 3 (by omega) (by omega) (by omega)]
  dsimp only
  rw [@write_bits_flush1 _ (0 * 2 ^ 3 + 3) (0 + 1 + 3) 24 (c.length % 2 ^ 32)
    (by norm_num) (by omega) (by norm_num) (by omega) (by norm_num)
    (by norm_num) (by norm_num; omega)]
  dsimp only
  rw [@write_bits_noflush _
    (((0 * 2 ^ 3 + 3) * 2 ^ 24 + c.length % 2 ^ 32) % 2 ^ (0 + 1 + 3 + 24 - 16))
    (0 + 1 + 3 + 24 - 16) 1 0 (by omega) (by norm_num) (by norm_num)]
  dsimp only
  rw [@align16w_pos _
    (((0 * 2 ^ 3 + 3) * 2 ^ 24 + c.length % 2 ^ 32) % 2 ^ (0 + 1 + 3 + 24 - 16) *
        2 ^ 1 + 0)
    (0 + 1 + 3 + 24 - 16 + 1)
    (by norm_num
        have hx := Nat.mod_lt ((0 * 2 ^ 3 + 3) * 2 ^ 24 + c.length % 2 ^ 32)
          (show 0 < 4096 by norm_num)
        omega)
    (by norm_num) (by norm_num)]
  dsimp only
  rw [write_u32_clean]
  dsimp only
  rw [write_u32_clean]
  dsimp only
  rw [write_u32_clean]
  dsimp only
  rw [write_raw_clean]
  dsimp only
  by_cases hodd : c.length % 2 = 1
  · rw [if_pos hodd]
    rw [align16w_extra]
    simp only [chunkBytes, if_pos hodd, Except.ok.injEq, BitWriter.mk.injEq,
      List.append_assoc, List.cons_append, List.nil_append, List.cons.injEq,
      List.append_cancel_left_eq, and_true, true_and]
    norm_num
    omega
  · rw [if_neg hodd]
    rw [align16w_zero]
    simp only [chunkBytes, if_neg hodd, Except.ok.injEq, BitWriter.mk.injEq,
      List.append_assoc, List.cons_append, List.nil_append, List.cons.injEq,
      List.append_cancel_left_eq, and_true, true_and, List.append_nil]
    norm_num
    omega

/-- The writer effects of `emit_chunk` on a later chunk (stream header
bit already written), from a clean writer state. -/
theorem emitChunkWriter_later (out : List Nat) (c : List Nat)
    (hlen : c.length ≤ CHUNK_SIZE) :
    Encoder.emitChunkWriter true c ⟨out, 0, 0, false⟩ =
      .ok ⟨out ++ chunkBytes false c, 0, 0, false⟩ := by
  have hl : c.length ≤ 32768 := hlen
  simp only [Encoder.emitChunkWriter]
  rw [align16w_zero]
  dsimp only
  rw [write_u16_clean]
  dsimp only
  simp only [if_true]
  rw [show BlockType.Uncompressed.to_bits = 3 from rfl]
  rw [write_bits_clean (by omega) (by omega) (by omega)]
  dsimp only
  rw [@write_bits_flush1 _ 3 (0 + 3) 24 (c.length % 2 ^ 32)
    (by norm_num) (by omega) (by norm_num) (by omega) (by norm_num)
    (by norm_num) (by norm_num; omega)]
  dsimp only
  rw [@write_bits_noflush _
    ((3 * 2 ^ 24 + c.length % 2 ^ 32) % 2 ^ (0 + 3 + 24 - 16))
    (0 + 3 + 24 - 16) 1 0 (by omega) (by norm_num) (by norm_num)]
  dsimp only
  rw [@align16w_pos _
    ((3 * 2 ^ 24 + c.length % 2 ^ 32) % 2 ^ (0 + 3 + 24 - 16) * 2 ^ 1 + 0)
    (0 + 3 + 24 - 16 + 1)
    (by norm_num
        have hx := Nat.mod_lt (3 * 2 ^ 24 + c.length % 2 ^ 32)
          (show 0 < 2048 by norm_num)
        omega)
    (by norm_num) (by norm_num)]
  dsimp only
  rw [write_u32_clean]
  dsimp only
  rw [write_u32_clean]
  dsimp only
  rw [write_u32_clean]
  dsimp only
  rw [write_raw_clean]
  dsimp only
  by_cases hodd : c.length % 2 = 1
  · rw [if_pos hodd]
    rw [align16w_extra]
    simp only [chunkBytes, if_pos hodd, Except.ok.injEq, BitWriter.mk.injEq,
      List.append_assoc, List.cons_append, List.nil_append, List.cons.injEq,
      List.append_cancel_left_eq, and_true, true_and]
    norm_num
    omega
  · rw [if_neg hodd]
    rw [align16w_zero]
    simp only [chunkBytes, if_neg hodd, Except.ok.injEq, BitWriter.mk.injEq,
      List.append_assoc, List.cons_append, List.nil_append, List.cons.injEq,
      List.append_cancel_left_eq, and_true, true_and, List.append_nil]
    norm_num
    omega

/-- `emit_chunk` on the first chunk, from a clean writer. -/
theorem emit_chunk_first {out : List Nat} {total : Nat} {c : List Nat}
    (h1 : c ≠ []) (hlen : c.length ≤ CHUNK_SIZE)
    (hok : c.length = CHUNK_SIZE ∨ total = 0) :
    Encoder.emit_chunk ⟨⟨out, 0, 0, false⟩, false, total, c⟩ =
      .ok ⟨⟨out ++ chunkBytes true c, 0, 0, false⟩, true, total, []⟩ := by
  unfold Encoder.emit_chunk
  dsimp only
  rw [if_neg (by simp [h1]), if_neg (by omega), if_neg (by tauto)]
  rw [emitChunkWriter_first out c hlen]

/-- `emit_chunk` on a later chunk, from a clean writer. -/
theorem emit_chunk_later {out : List Nat} {total : Nat} {c : List Nat}
    (h1 : c ≠ []) (hlen : c.length ≤ CHUNK_SIZE)
    (hok : c.length = CHUNK_SIZE ∨ total = 0) :
    Encoder.emit_chunk ⟨⟨out, 0, 0, false⟩, true, total, c⟩ =
      .ok ⟨⟨out ++ chunkBytes false c, 0, 0, false⟩, true, total, []⟩ := by
  unfold Encoder.emit_chunk
  dsimp only
  rw [if_neg (by simp [h1]), if_neg (by omega), if_neg (by tauto)]
  rw [emitChunkWriter_later out c hlen]

/-- The `write` loop is finished when the input is consumed and the chunk
buffer is empty. -/
theorem writeGo_nil_done {fuel written : Nat} {e : Encoder}
    (hbuf : e.chunk_buffer = []) :
    Encoder.writeGo fuel e [] written = .ok (written, e) := by
  cases fuel <;>
    (unfold Encoder.writeGo
     rw [if_neg (by simp), if_neg (by simp [hbuf])])

/-- The `write` loop with no input left and all declared bytes consumed
flushes the pending first chunk. -/
theorem writeGo_nil_emit_first {fuel written : Nat} {out c : List Nat}
    (h1 : c ≠ []) (hlen : c.length ≤ CHUNK_SIZE) :
    Encoder.writeGo fuel ⟨⟨out, 0, 0, false⟩, false, 0, c⟩ [] written =
      .ok (written,
           ⟨⟨out ++ chunkBytes true c, 0, 0, false⟩, true, 0, []⟩) := by
  cases fuel <;>
    (unfold Encoder.writeGo
     rw [if_neg (by simp),
       if_pos (by exact ⟨rfl, by simp [List.isEmpty_iff, h1]⟩),
       emit_chunk_first h1 hlen (Or.inr rfl)])

/-- The `write` loop with no input left and all declared bytes consumed
flushes the pending later chunk. -/
theorem writeGo_nil_emit_later {fuel written : Nat} {out c : List Nat}
    (h1 : c ≠ []) (hlen : c.length ≤ CHUNK_SIZE) :
    Encoder.writeGo fuel ⟨⟨out, 0, 0, false⟩, true, 0, c⟩ [] written =
      .ok (written,
           ⟨⟨out ++ chunkBytes false c, 0, 0, false⟩, true, 0, []⟩) := by
  cases fuel <;>
    (unfold Encoder.writeGo
     rw [if_neg (by simp),
       if_pos (by exact ⟨rfl, by simp [List.isEmpty_iff, h1]⟩),
       emit_chunk_later h1 hlen (Or.inr rfl)])

/-- Encoding a single-chunk input (length in `[1, CHUNK_SIZE]`) produces
exactly the bytes of one first chunk. -/
theorem encode_single (data : List Nat) (h1 : 1 ≤ data.length)
    (h2 : data.length ≤ CHUNK_SIZE) :
    encodeBytes 15 data.length data = .ok (chunkBytes true data) := by
  have hne : data ≠ [] := by
    intro hd
    rw [hd] at h1
    simp at h1
  unfold encodeBytes
  rw [show Encoder.new 15 data.length =
        .ok ⟨⟨[], 0, 0, false⟩, false, data.length, []⟩ from rfl]
  dsimp only
  unfold Encoder.write
  unfold Encoder.writeGo
  rw [if_pos (by dsimp only; exact ⟨by omega, hne⟩)]
  rw [if_neg (by dsimp only; simp [CHUNK_SIZE])]
  simp only []
  rw [show min (min data.length (CHUNK_SIZE - List.length []))
        data.length = data.length from by
      simp only [List.length_nil]
      have hc : (CHUNK_SIZE : Nat) = 32768 := rfl
      omega]
  rw [List.take_length, List.nil_append, Nat.sub_self, List.drop_length]
  rw [if_neg (not_not_intro h2)]
  by_cases hfull : data.length = CHUNK_SIZE
  · rw [if_pos hfull]
    rw [emit_chunk_first hne h2 (Or.inr rfl)]
    dsimp only
    rw [writeGo_nil_done rfl]
    simp
  · rw [if_neg hfull]
    dsimp only
    rw [writeGo_nil_emit_first hne h2]
    simp

/-- One full `write`-loop round on a later chunk: the input that remains
is exactly the declared remainder and fits in one chunk. -/
theorem writeGo_second_chunk (fuel : Nat) (hfuel : 1 ≤ fuel)
    (out rest : List Nat) (written : Nat) (h1 : 1 ≤ rest.length)
    (h2 : rest.length ≤ CHUNK_SIZE) :
    Encoder.writeGo fuel ⟨⟨out, 0, 0, false⟩, true, rest.length, []⟩ rest
        written =
      .ok (written + rest.length,
           ⟨⟨out ++ chunkBytes false rest, 0, 0, false⟩, true, 0, []⟩) := by
  match fuel, hfuel with
  | fuel + 1, _ =>
    have hne : rest ≠ [] := by
      intro hd
      rw [hd] at h1
      simp at h1
    unfold Encoder.writeGo
    rw [if_pos (by dsimp only; exact ⟨by omega, hne⟩)]
    rw [if_neg (by dsimp only; simp [CHUNK_SIZE])]
    simp only []
    rw [show min (min rest.length (CHUNK_SIZE - List.length []))
          rest.length = rest.length from by
        simp only [List.length_nil]
        have hc : (CHUNK_SIZE : Nat) = 32768 := rfl
        omega]
    rw [List.take_length, List.nil_append, Nat.sub_self, List.drop_length]
    rw [if_neg (not_not_intro h2)]
    by_cases hfull : rest.length = CHUNK_SIZE
    · rw [if_pos hfull]
      rw [emit_chunk_later hne h2 (Or.inr rfl)]
      dsimp only
      rw [writeGo_nil_done rfl]
    · rw [if_neg hfull]
      dsimp only
      rw [writeGo_nil_emit_later hne h2]

/-- Encoding a two-chunk input (length in `(CHUNK_SIZE, 2 * CHUNK_SIZE]`)
produces a full first chunk followed by one later chunk. -/
theorem encode_double (data : List Nat) (h1 : CHUNK_SIZE < data.length)
    (h2 : data.length ≤ 2 * CHUNK_SIZE) :
    encodeBytes 15 data.length data =
      .ok (chunkBytes true (data.take CHUNK_SIZE) ++
           chunkBytes false (data.drop CHUNK_SIZE)) := by
  have hc : (CHUNK_SIZE : Nat) = 32768 := rfl
  unfold encodeBytes
  rw [show Encoder.new 15 data.length =
        .ok ⟨⟨[], 0, 0, false⟩, false, data.length, []⟩ from rfl]
  dsimp only
  unfold Encoder.write
  unfold Encoder.writeGo
  rw [if_pos (by
    dsimp only
    exact ⟨by omega, by intro hd; rw [hd] at h1; simp [CHUNK_SIZE] at h1⟩)]
  rw [if_neg (by dsimp only; simp [CHUNK_SIZE])]
  simp only []
  rw [show min (min data.length (CHUNK_SIZE - List.length []))
        data.length = CHUNK_SIZE from by
      simp only [List.length_nil]
      omega]
  rw [List.nil_append]
  have htakelen : (data.take CHUNK_SIZE).length = CHUNK_SIZE := by
    simp only [List.length_take]
    omega
  rw [if_neg (not_not_intro (le_of_eq htakelen))]
  rw [if_pos htakelen]
  have htne : data.take CHUNK_SIZE ≠ [] := by
    intro hd
    have := congrArg List.length hd
    rw [htakelen] at this
    simp [hc] at this
  rw [emit_chunk_first htne (le_of_eq htakelen) (Or.inl htakelen)]
  dsimp only
  have hrest : data.length - CHUNK_SIZE = (data.drop CHUNK_SIZE).length := by
    simp only [List.length_drop]
  rw [hrest]
  rw [writeGo_second_chunk data.length (by omega) _ _ _
    (by simp only [List.length_drop]; omega)
    (by simp only [List.length_drop]; omega)]
  simp

/-! ## Evaluation lemmas for the decoder side -/

/-- `read_bits` on a fresh (or word-aligned, empty-buffer) reader pulls
one word and serves its top `n` bits. -/
theorem read_bits_fresh {inp : List Nat} {n x0 x1 : Nat}
    (h1 : 1 ≤ n) (h16 : n ≤ 16) (hx0 : x0 < 256) (hx1 : x1 < 256) :
    BitReader.read_bits n ⟨x0 :: x1 :: inp, 0, 0, 0⟩ =
      .ok ((x0 + 256 * x1) / 2 ^ (16 - n),
           ⟨inp, (x0 + 256 * x1) % 2 ^ (16 - n) * 2 ^ (64 - (16 - n)),
            16 - n, n % 16⟩) := by
  have h := @read_bits_refill inp 0 0 0 n x0 x1 (by norm_num) h1 (by omega)
    (by omega) (by omega) hx0 hx1
  simp only [Nat.zero_mul, Nat.zero_add] at h
  exact h

/-- `read_u16` through the bit reader with an empty bit buffer is a
direct two-byte little-endian read. -/
theorem read_u16_direct {rest : List Nat} {a b bb m : Nat}
    (hm : m % 8 = 0) :
    BitReader.read_u16 ⟨a :: b :: rest, bb, 0, m⟩ =
      .ok (a + 256 * b, ⟨rest, bb, 0, m⟩) := by
  unfold BitReader.read_u16
  rw [read_exact_direct hm (by simp)]
  simp

/-- `read_u32` through the bit reader with an empty bit buffer is a
direct four-byte little-endian read. -/
theorem read_u32_direct {rest : List Nat} {a b c d bb m : Nat}
    (hm : m % 8 = 0) :
    BitReader.read_u32 ⟨a :: b :: c :: d :: rest, bb, 0, m⟩ =
      .ok (a + 256 * b + 65536 * c + 16777216 * d, ⟨rest, bb, 0, m⟩) := by
  unfold BitReader.read_u32
  rw [read_exact_direct hm (by simp)]
  simp

/-- The block-header loop exits at once when block bytes remain. -/
theorem blockLoop_exit {fuel : Nat} {d : Decoder}
    (h : d.block_uncompressed_bytes_remaining ≠ 0) :
    Decoder.blockLoop fuel d = .ok d := by
  cases fuel <;> (unfold Decoder.blockLoop; rw [if_neg h])

/-- The decoder read loop exits at once when the stream is finished. -/
theorem readGo_done {fuel bufLen : Nat} {d : Decoder} {acc : List Nat}
    (h : d.total_uncompressed_bytes_remaining = 0) :
    Decoder.readGo fuel d bufLen acc = .ok (acc, d) := by
  cases fuel <;> (unfold Decoder.readGo; rw [if_neg (by simp [h])])

/-- Decoding the byte stream of one first chunk (contents length in
`[1, CHUNK_SIZE]`) yields exactly the chunk contents. -/
theorem decode_single (c : List Nat) (h1 : 1 ≤ c.length)
    (h2 : c.length ≤ CHUNK_SIZE) :
    decodeBytes 15 c.length (chunkBytes true c) = .ok c := by
  have hc : (CHUNK_SIZE : Nat) = 32768 := rfl
  have hl : c.length ≤ 32768 := by omega
  unfold decodeBytes
  unfold Decoder.new
  rw [if_neg (by norm_num [WINDOW_MIN, WINDOW_MAX])]
  simp only [chunkBytes, if_true, List.cons_append, List.nil_append]
  unfold BitReader.new
  rw [read_bits_fresh (by norm_num) (by norm_num) (by omega) (by omega)]
  rw [show (12288 + c.length / 4096) % 256 +
        256 * ((12288 + c.length / 4096) / 256) =
        12288 + c.length / 4096 from by omega]
  rw [show (12288 + c.length / 4096) / 2 ^ (16 - 1) = 0 from by omega]
  dsimp only
  rw [if_neg (by norm_num)]
  dsimp only
  unfold Decoder.read
  rw [show c.length + 2 = c.length + 1 + 1 from rfl]
  unfold Decoder.readGo
  rw [if_pos (by
    dsimp only
    exact ⟨by omega, by simp; omega⟩)]
  dsimp only
  rw [if_neg (by rw [hc]; omega)]
  dsimp only
  unfold Decoder.blockLoop
  rw [if_pos rfl]
  rw [if_neg (by dsimp only; decide)]
  dsimp only
  rw [show (12288 + c.length / 4096) % 2 ^ (16 - 1) =
        12288 + c.length / 4096 from by omega]
  rw [show (16 : Nat) - 1 = 15 from rfl]
  rw [show (1 : Nat) % 16 = 1 from rfl]
  rw [@read_bits_no_refill _ (12288 + c.length / 4096) 15 1 3
    (by omega) (by omega) (by omega) (by omega) (by omega)]
  rw [show (12288 + c.length / 4096) / 2 ^ (15 - 3) = 3 from by omega]
  dsimp only
  rw [show BlockType.from_bits 3 = .ok BlockType.Uncompressed from rfl]
  dsimp only
  rw [show (12288 + c.length / 4096) % 2 ^ (15 - 3) = c.length / 4096 from by
    omega]
  rw [show (15 : Nat) - 3 = 12 from rfl, show ((1 : Nat) + 3) % 16 = 4 from rfl]
  rw [@read_bits_refill _ (c.length / 4096) 12 4 24 _ _ (by omega) (by omega)
    (by omega) (by omega) (by omega) (by omega) (by omega)]
  rw [show c.length % 4096 * 16 % 256 + 256 * (c.length % 4096 * 16 / 256) =
        c.length % 4096 * 16 from by omega]
  rw [show (c.length / 4096 * 2 ^ 16 + c.length % 4096 * 16) /
        2 ^ (12 + 16 - 24) = c.length from by omega]
  dsimp only
  rw [show (c.length / 4096 * 2 ^ 16 + c.length % 4096 * 16) %
        2 ^ (12 + 16 - 24) = 0 from by omega]
  rw [show (12 : Nat) + 16 - 24 = 4 from rfl,
    show ((4 : Nat) + 24) % 16 = 12 from rfl]
  rw [@read_bits_no_refill _ 0 4 12 1 (by omega) (by omega) (by omega)
    (by omega) (by omega)]
  dsimp only
  unfold BitReader.align_to_16
  rw [show ((12 : Nat) + 1) % 16 = 13 from rfl, show (4 : Nat) - 1 = 3 from rfl]
  rw [if_pos (show (13 : Nat) ≠ 0 from by norm_num)]
  rw [show (16 : Nat) - 13 = 3 from rfl]
  rw [show (0 : Nat) % 2 ^ 3 = 0 from rfl]
  rw [@read_bits_no_refill _ 0 3 13 3 (by omega) (by omega) (by omega)
    (by omega) (by omega)]
  simp only [Except.map]
  rw [show (3 : Nat) - 3 = 0 from rfl]
  rw [if_neg (by norm_num)]
  dsimp only
  rw [show ((13 : Nat) + 3) % 16 = 0 from rfl]
  rw [read_u32_direct (by norm_num)]
  dsimp only
  rw [read_u32_direct (by norm_num)]
  dsimp only
  rw [read_u32_direct (by norm_num)]
  dsimp only
  rw [blockLoop_exit (by dsimp only; omega)]
  dsimp only
  simp only [List.length_nil, Nat.sub_zero]
  rw [show min (min c.length (min c.length CHUNK_SIZE)) c.length =
        c.length from by rw [hc]; omega]
  rw [if_neg (by omega)]
  rw [read_exact_direct (by norm_num) (by simp)]
  rw [List.take_left]
  dsimp only
  rw [List.nil_append]
  rw [readGo_done (by dsimp only; omega)]

set_option maxHeartbeats 2000000 in
/-- Decoding a first full chunk followed by a second chunk of length
in `[1, CHUNK_SIZE]` yields the concatenated contents. -/
theorem decode_double (u v : List Nat) (hu : u.length = CHUNK_SIZE)
    (hv1 : 1 ≤ v.length) (hv2 : v.length ≤ CHUNK_SIZE) :
    decodeBytes 15 (u.length + v.length)
        (chunkBytes true u ++ chunkBytes false v) = .ok (u ++ v) := by
  have hc : (CHUNK_SIZE : Nat) = 32768 := rfl
  have hu32 : u.length = 32768 := by omega
  have hl : u.length <= 32768 := by omega
  have hvl : v.length <= 32768 := by omega
  unfold decodeBytes
  unfold Decoder.new
  rw [if_neg (by norm_num [WINDOW_MIN, WINDOW_MAX])]
  simp only [chunkBytes, if_true, Bool.false_eq_true, if_false,
    List.cons_append, List.nil_append, List.append_assoc]
  rw [if_neg (show ¬u.length % 2 = 1 from by omega)]
  rw [List.nil_append]
  unfold BitReader.new
  rw [read_bits_fresh (by norm_num) (by norm_num) (by omega) (by omega)]
  rw [show (12288 + u.length / 4096) % 256 +
        256 * ((12288 + u.length / 4096) / 256) =
        12288 + u.length / 4096 from by omega]
  rw [show (12288 + u.length / 4096) / 2 ^ (16 - 1) = 0 from by omega]
  dsimp only
  rw [if_neg (by norm_num)]
  dsimp only
  unfold Decoder.read
  rw [show u.length + v.length + 2 = u.length + v.length + 1 + 1 from rfl]
  unfold Decoder.readGo
  rw [if_pos (by
    dsimp only
    exact ⟨by omega, by simp; omega⟩)]
  dsimp only
  rw [if_neg (by rw [hc]; omega)]
  dsimp only
  unfold Decoder.blockLoop
  rw [if_pos rfl]
  rw [if_neg (by dsimp only; decide)]
  dsimp only
  rw [show (12288 + u.length / 4096) % 2 ^ (16 - 1) =
        12288 + u.length / 4096 from by omega]
  rw [show (16 : Nat) - 1 = 15 from rfl]
  rw [show (1 : Nat) % 16 = 1 from rfl]
  rw [@read_bits_no_refill _ (12288 + u.length / 4096) 15 1 3
    (by omega) (by omega) (by omega) (by omega) (by omega)]
  rw [show (12288 + u.length / 4096) / 2 ^ (15 - 3) = 3 from by omega]
  dsimp only
  rw [show BlockType.from_bits 3 = .ok BlockType.Uncompressed from rfl]
  dsimp only
  rw [show (12288 + u.length / 4096) % 2 ^ (15 - 3) = u.length / 4096 from by
    omega]
  rw [show (15 : Nat) - 3 = 12 from rfl, show ((1 : Nat) + 3) % 16 = 4 from rfl]
  rw [@read_bits_refill _ (u.length / 4096) 12 4 24 _ _ (by omega) (by omega)
    (by omega) (by omega) (by omega) (by omega) (by omega)]
  rw [show u.length % 4096 * 16 % 256 + 256 * (u.length % 4096 * 16 / 256) =
        u.length % 4096 * 16 from by omega]
  rw [show (u.length / 4096 * 2 ^ 16 + u.length % 4096 * 16) /
        2 ^ (12 + 16 - 24) = u.length from by omega]
  dsimp only
  rw [show (u.length / 4096 * 2 ^ 16 + u.length % 4096 * 16) %
        2 ^ (12 + 16 - 24) = 0 from by omega]
  rw [show (12 : Nat) + 16 - 24 = 4 from rfl,
    show ((4 : Nat) + 24) % 16 = 12 from rfl]
  rw [@read_bits_no_refill _ 0 4 12 1 (by omega) (by omega) (by omega)
    (by omega) (by omega)]
  dsimp only
  unfold BitReader.align_to_16
  rw [show ((12 : Nat) + 1) % 16 = 13 from rfl, show (4 : Nat) - 1 = 3 from rfl]
  rw [if_pos (show (13 : Nat) ≠ 0 from by norm_num)]
  rw [show (16 : Nat) - 13 = 3 from rfl]
  rw [show (0 : Nat) % 2 ^ 3 = 0 from rfl]
  rw [@read_bits_no_refill _ 0 3 13 3 (by omega) (by omega) (by omega)
    (by omega) (by omega)]
  simp only [Except.map]
  rw [show (3 : Nat) - 3 = 0 from rfl]
  rw [if_neg (by norm_num)]
  dsimp only
  rw [show ((13 : Nat) + 3) % 16 = 0 from rfl]
  rw [read_u32_direct (by norm_num)]
  dsimp only
  rw [read_u32_direct (by norm_num)]
  dsimp only
  rw [read_u32_direct (by norm_num)]
  dsimp only
  rw [blockLoop_exit (by dsimp only; omega)]
  dsimp only
  simp only [List.length_nil, Nat.sub_zero]
  rw [show min (min u.length (min (u.length + v.length) CHUNK_SIZE))
        (u.length + v.length) = u.length from by rw [hc]; omega]
  rw [if_neg (by omega)]
  rw [read_exact_direct (by norm_num) (by simp)]
  rw [List.take_left, List.drop_left]
  rw [if_neg (show ¬u.length % 2 = 1 from by omega)]
  dsimp only
  rw [List.nil_append]
  rw [show u.length + v.length - u.length = v.length from by omega]
  rw [show min (u.length + v.length) CHUNK_SIZE - u.length = 0 from by
    rw [hc]; omega]
  rw [show u.length - u.length = 0 from by omega]
  rw [show (0 : Nat) % 2 ^ 0 * 2 ^ (64 - 0) = 0 from rfl]
  unfold Decoder.readGo
  rw [if_pos (by
    dsimp only
    exact ⟨by omega, by omega⟩)]
  dsimp only
  rw [if_pos rfl]
  rw [align16_noop rfl rfl]
  dsimp only
  rw [read_u16_direct (by norm_num)]
  dsimp only
  rw [show min v.length CHUNK_SIZE = v.length from by rw [hc]; omega]
  unfold Decoder.blockLoop
  rw [if_pos rfl]
  rw [if_pos rfl]
  dsimp only
  rw [align16_noop rfl rfl]
  dsimp only
  rw [read_bits_fresh (by norm_num) (by norm_num) (by omega) (by omega)]
  rw [show (24576 + v.length / 2048) % 256 +
        256 * ((24576 + v.length / 2048) / 256) =
        24576 + v.length / 2048 from by omega]
  rw [show (24576 + v.length / 2048) / 2 ^ (16 - 3) = 3 from by omega]
  dsimp only
  rw [show BlockType.from_bits 3 = .ok BlockType.Uncompressed from rfl]
  dsimp only
  rw [show (24576 + v.length / 2048) % 2 ^ (16 - 3) = v.length / 2048 from by
    omega]
  rw [show (16 : Nat) - 3 = 13 from rfl, show (3 : Nat) % 16 = 3 from rfl]
  rw [@read_bits_refill _ (v.length / 2048) 13 3 24 _ _ (by omega) (by omega)
    (by omega) (by omega) (by omega) (by omega) (by omega)]
  rw [show v.length % 2048 * 32 % 256 + 256 * (v.length % 2048 * 32 / 256) =
        v.length % 2048 * 32 from by omega]
  rw [show (v.length / 2048 * 2 ^ 16 + v.length % 2048 * 32) /
        2 ^ (13 + 16 - 24) = v.length from by omega]
  dsimp only
  rw [show (v.length / 2048 * 2 ^ 16 + v.length % 2048 * 32) %
        2 ^ (13 + 16 - 24) = 0 from by omega]
  rw [show (13 : Nat) + 16 - 24 = 5 from rfl,
    show ((3 : Nat) + 24) % 16 = 11 from rfl]
  rw [@read_bits_no_refill _ 0 5 11 1 (by omega) (by omega) (by omega)
    (by omega) (by omega)]
  dsimp only
  unfold BitReader.align_to_16
  rw [show ((11 : Nat) + 1) % 16 = 12 from rfl, show (5 : Nat) - 1 = 4 from rfl]
  rw [if_pos (show (12 : Nat) ≠ 0 from by norm_num)]
  rw [show (16 : Nat) - 12 = 4 from rfl]
  rw [show (0 : Nat) % 2 ^ 4 = 0 from rfl]
  rw [@read_bits_no_refill _ 0 4 12 4 (by omega) (by omega) (by omega)
    (by omega) (by omega)]
  simp only [Except.map]
  rw [show (4 : Nat) - 4 = 0 from rfl]
  rw [if_neg (by norm_num)]
  dsimp only
  rw [show ((12 : Nat) + 4) % 16 = 0 from rfl]
  rw [read_u32_direct (by norm_num)]
  dsimp only
  rw [read_u32_direct (by norm_num)]
  dsimp only
  rw [read_u32_direct (by norm_num)]
  dsimp only
  rw [blockLoop_exit (by dsimp only; omega)]
  dsimp only
  rw [show u.length + v.length - u.length = v.length from by omega]
  rw [show min (min v.length v.length) v.length = v.length from by omega]
  rw [if_neg (by omega)]
  rw [read_exact_direct (by norm_num) (by simp)]
  rw [List.take_left]
  dsimp only
  rw [readGo_done (by dsimp only; omega)]

/-! ## Claim theorems (part 1) -/

/-- C5 (code bug): `ensure_buffer_has_at_least` tops the buffer up at most
once, so a single top-up does not always provide `n` bits for `n ≤ 32`:
on the decoder's own filesize path (`Decoder::new` with the header flag
bit set), `read_bits(32)` runs with 15 buffered bits, one refill yields
only 31, and the assertion `bits_in_buffer >= num_bits` fails — a panic in
a debug build. -/
theorem claim_c5_single_topup_fails :
    Decoder.new [0x00, 0x00, 0x00, 0x80, 0x00, 0x00] 15 3 =
      .error .assertFailed :=
  rfl

/-- C6 (code bug): `read_bits(0)` evaluates `bit_buffer >> (64 - 0)`, an
out-of-range shift on a `u64`, which panics in a debug build instead of
being a no-op. -/
theorem claim_c6_read_zero_bits_panics :
    BitReader.read_bits 0 (BitReader.new []) = .error .assertFailed :=
  rfl

/-- C7 (code bug): with one whole byte (`0xAB`) resident in the bit
buffer, a 2-byte raw read drains that byte into `buf[0]` but never
increments `bytes_read`, so the call returns count 0: the buffered byte is
neither counted nor followed by the source bytes, and is lost from the
stream. -/
theorem claim_c7_drain_loop_loses_bytes :
    (match BitReader.read_bits 8 (BitReader.new [0xAB, 0xCD]) with
     | .ok (_, r) => BitReader.read [0, 0] r
     | .error e => .error e) =
      .ok (0, [0xAB, 0x00], ⟨[], 0, 0, 0⟩) :=
  rfl

/-- C2 counterexample: for N = 0 the encoder emits no bytes at all, and
`Decoder::new` on the empty stream fails with `UnexpectedEof` while
reading the first chunk header, so the N = 0 round-trip of the claim does
not succeed. -/
theorem claim_c2_counterexample :
    encodeBytes 15 0 [] = .ok [] ∧
    decodeBytes 15 0 [] = .error .eof ∧
    (Except.error .eof : Except LzxError (List Nat)) ≠ .ok [] :=
  ⟨rfl, rfl, by simp⟩

/-- C3 counterexample: the single pair `(17, 1)` does not round-trip.
The writer emits it fine, but `read_bits(17)` from a fresh reader refills
only once, is left with 16 < 17 buffered bits, and fails its assertion
(a panic in a debug build) instead of returning 1. -/
theorem claim_c3_counterexample :
    bitRoundTrip [(17, 1)] = .error .assertFailed ∧
    (Except.error .assertFailed : Except LzxError (List Nat)) ≠ .ok [1] :=
  ⟨rfl, by simp⟩

/-- C4 counterexample: immediately after `Decoder::new` returns (here on
the reference "abc" stream with window 15), the recent-offsets triple is
`(0, 0, 0)`, not `(1, 1, 1)`. -/
theorem claim_c4_counterexample :
    recentAfterNew abcStream 15 3 = .ok (0, 0, 0) ∧
    ((0, 0, 0) : Nat × Nat × Nat) ≠ (1, 1, 1) :=
  ⟨rfl, by simp⟩

/-- C4 amended: `Decoder::new` initialises the recent-offsets triple to
`(0, 0, 0)`; whenever construction succeeds the triple is `(0, 0, 0)`
(it only becomes the stream-supplied values — `(1, 1, 1)` for
encoder-produced streams — when the first uncompressed block header is
parsed during a later `read`). -/
theorem claim_c4_amended (input : List Nat) (window size : Nat)
    (d : Decoder) (h : Decoder.new input window size = .ok d) :
    d.recent = (0, 0, 0) := by
  unfold Decoder.new at h
  split at h
  · exact absurd h (by simp)
  · split at h
    · split at h
      · exact absurd h (by simp)
      · split at h
        · split at h
          · exact absurd h (by simp)
          · cases h
            rfl
        · cases h
          rfl
    · exact absurd h (by simp)

/-- C4 amended, witness at the reference stream. -/
theorem claim_c4_witness :
    Decoder.new abcStream 15 3 = .ok abcDecoder ∧
    abcDecoder.recent = (0, 0, 0) :=
  ⟨rfl, claim_c4_amended abcStream 15 3 abcDecoder rfl⟩

/-- C9: once `total_uncompressed_bytes_remaining` is 0, every `read`
returns 0 bytes with no error and leaves the decoder (and hence the
underlying source position) completely unchanged. -/
theorem claim_c9_terminal_reads_return_zero (d : Decoder) (bufLen fuel : Nat)
    (h : d.total_uncompressed_bytes_remaining = 0) :
    Decoder.read d bufLen fuel = .ok ([], d) := by
  unfold Decoder.read
  cases fuel <;> (unfold Decoder.readGo; rw [if_neg (by simp [h])])

/-- C9 witness: a finished decoder state. -/
theorem claim_c9_witness :
    (⟨BitReader.new [], 0, 0, 0, 0, .Verbatim, 0, (0, 0, 0), []⟩ :
        Decoder).total_uncompressed_bytes_remaining = 0 ∧
    Decoder.read ⟨BitReader.new [], 0, 0, 0, 0, .Verbatim, 0, (0, 0, 0), []⟩
        10 10 =
      .ok ([], ⟨BitReader.new [], 0, 0, 0, 0, .Verbatim, 0, (0, 0, 0), []⟩) :=
  ⟨rfl, claim_c9_terminal_reads_return_zero _ 10 10 rfl⟩

/-- C10: a `read` with a zero-length output buffer returns `Ok(0)` and
leaves every component of the decoder state — counters, block type,
recent offsets, window, and the underlying reader — unchanged, even when
`total_uncompressed_bytes_remaining > 0`. -/
theorem claim_c10_zero_length_read_is_pure (d : Decoder) (fuel : Nat) :
    Decoder.read d 0 fuel = .ok ([], d) := by
  unfold Decoder.read
  cases fuel <;> (unfold Decoder.readGo; rw [if_neg (by simp)])

/-- A successful `emit_chunk` does not change the number of declared
uncompressed bytes still outstanding. -/
theorem emit_chunk_preserves_total {e e1 : Encoder}
    (h : Encoder.emit_chunk e = .ok e1) :
    e1.total_uncompressed_bytes_remaining =
      e.total_uncompressed_bytes_remaining := by
  unfold Encoder.emit_chunk at h
  split at h
  · exact absurd h (by simp)
  · split at h
    · exact absurd h (by simp)
    · split at h
      · exact absurd h (by simp)
      · split at h
        · exact absurd h (by simp)
        · cases h
          rfl

/-- The count returned by the `write` loop: starting from `written`
accepted bytes, a successful run accepts exactly
`min remaining.length total_remaining` more. -/
theorem encoder_writeGo_count (fuel : Nat) :
    ∀ (e : Encoder) (remaining : List Nat) (written n : Nat) (e1 : Encoder),
      Encoder.writeGo fuel e remaining written = .ok (n, e1) →
      n = written +
        min remaining.length e.total_uncompressed_bytes_remaining := by
  induction fuel with
  | zero =>
    intro e remaining written n e1 h
    unfold Encoder.writeGo at h
    split at h
    · exact absurd h (by simp)
    · rename_i hcond
      split at h
      · exact absurd h (by simp)
      · cases h
        rcases Decidable.not_and_iff_or_not.mp hcond with h0 | h0
        · have : e.total_uncompressed_bytes_remaining = 0 := by omega
          simp [this]
        · have : remaining = [] := by
            by_contra hne
            exact h0 hne
          simp [this]
  | succ fuel ih =>
    intro e remaining written n e1 h
    unfold Encoder.writeGo at h
    split at h
    · rename_i hcond
      split at h
      · exact absurd h (by simp)
      · rename_i hlt
        simp only [] at h
        split at h
        · exact absurd h (by simp)
        · rename_i hemit
          split at h
          · exact absurd h (by simp)
          · rename_i e2 hok
            have hrec := ih _ _ _ _ _ h
            have htot2 : e2.total_uncompressed_bytes_remaining =
                e.total_uncompressed_bytes_remaining -
                  min (min e.total_uncompressed_bytes_remaining
                        (CHUNK_SIZE - e.chunk_buffer.length))
                    remaining.length := by
              split at hok
              · rw [emit_chunk_preserves_total hok]
              · cases hok
                rfl
            have hrem : remaining ≠ [] := hcond.2
            have hlen : 0 < remaining.length := List.length_pos.mpr hrem
            have htot : 0 < e.total_uncompressed_bytes_remaining := hcond.1
            have hspace : 0 < CHUNK_SIZE - e.chunk_buffer.length := by
              have := hlt
              omega
            rw [hrec, htot2]
            simp only [List.length_drop]
            omega
    · rename_i hcond
      split at h
      · exact absurd h (by simp)
      · cases h
        rcases Decidable.not_and_iff_or_not.mp hcond with h0 | h0
        · have : e.total_uncompressed_bytes_remaining = 0 := by omega
          simp [this]
        · have : remaining = [] := by
            by_contra hne
            exact h0 hne
          simp [this]

/-- C8 amended: when a `write` call returns without error, the byte count
it returns is `min buf.length total_remaining` — equal to the full input
length exactly when the declared uncompressed size has at least
`buf.length` bytes still outstanding. -/
theorem claim_c8_amended (e : Encoder) (buf : List Nat) (n : Nat)
    (e1 : Encoder) (h : Encoder.write e buf = .ok (n, e1)) :
    n = min buf.length e.total_uncompressed_bytes_remaining := by
  simpa using encoder_writeGo_count (buf.length + 1) e buf 0 n e1 h

/-- C8 counterexample: an encoder declared with `uncompressed_size = 0`
(all declared bytes already consumed) accepts none of one offered byte and
still returns `Ok(0)` — no error, yet the count differs from the input
length 1. -/
theorem claim_c8_counterexample :
    Encoder.new 15 0 = .ok ⟨BitWriter.new, false, 0, []⟩ ∧
    Encoder.write ⟨BitWriter.new, false, 0, []⟩ [97] =
      .ok (0, ⟨BitWriter.new, false, 0, []⟩) ∧
    (0 : Nat) ≠ [97].length :=
  ⟨rfl, rfl, by simp⟩

/-- C8 amended, witness: the concrete call of the counterexample indeed
returns `min 1 0 = 0`. -/
theorem claim_c8_witness :
    Encoder.write ⟨BitWriter.new, false, 0, []⟩ [97] =
      .ok (0, ⟨BitWriter.new, false, 0, []⟩) ∧
    (0 : Nat) = min [97].length
      (⟨BitWriter.new, false, 0, []⟩ : Encoder).total_uncompressed_bytes_remaining :=
  ⟨rfl, claim_c8_amended _ _ _ _ rfl⟩


/-- C1: compressing the three bytes `"abc"` with `window = 15` and
`uncompressed_size = 3` produces exactly the 22-byte reference vector
`14 00 00 30 30 00 01 00 00 00 01 00 00 00 01 00 00 00 61 62 63 00`,
and decompressing that vector with `window = 15`, `uncompressed_size = 3`
reproduces `"abc"`. -/
theorem claim_c1_concrete_vector :
    encodeBytes 15 3 [0x61, 0x62, 0x63] = .ok abcStream ∧
    decodeBytes 15 3 abcStream = .ok [0x61, 0x62, 0x63] := by
  have hcb : chunkBytes true [0x61, 0x62, 0x63] = abcStream := by decide
  have hlen : ([0x61, 0x62, 0x63] : List Nat).length = 3 := rfl
  constructor
  · have h := encode_single [0x61, 0x62, 0x63] (by decide) (by decide)
    rw [hlen, hcb] at h
    exact h
  · have h := decode_single [0x61, 0x62, 0x63] (by decide) (by decide)
    rw [hlen, hcb] at h
    exact h

/-- C2 amended: for data lengths N in {1, 2, 3, 32767, 32768, 32769, 65536}
(the spec's N = 0 case is dropped: the encoder then emits no bytes at all
while `Decoder::new` demands a two-byte chunk header, so the round trip
fails with an EOF error), compressing with `window = 15` and decompressing
with the same window and `uncompressed_size = N` reproduces the data. -/
theorem claim_c2_amended (data : List Nat)
    (h : data.length = 1 ∨ data.length = 2 ∨ data.length = 3 ∨
         data.length = 32767 ∨ data.length = 32768 ∨
         data.length = 32769 ∨ data.length = 65536) :
    ∃ out, encodeBytes 15 data.length data = .ok out ∧
      decodeBytes 15 data.length out = .ok data := by
  have hc : (CHUNK_SIZE : Nat) = 32768 := rfl
  by_cases hs : data.length ≤ 32768
  · exact ⟨chunkBytes true data,
      encode_single data (by omega) (by rw [hc]; omega),
      decode_single data (by omega) (by rw [hc]; omega)⟩
  · refine ⟨_, encode_double data (by rw [hc]; omega) (by rw [hc]; omega), ?_⟩
    have hdd := decode_double (data.take CHUNK_SIZE) (data.drop CHUNK_SIZE)
      (by rw [List.length_take, hc]; omega)
      (by rw [List.length_drop, hc]; omega)
      (by rw [List.length_drop, hc]; omega)
    rw [List.length_take, List.length_drop] at hdd
    rw [show min CHUNK_SIZE data.length + (data.length - CHUNK_SIZE) =
          data.length from by rw [hc]; omega] at hdd
    rw [List.take_append_drop] at hdd
    exact hdd

/-- C2 amended, witness: the single byte `[97]` (length 1) round-trips. -/
theorem claim_c2_witness :
    (([97] : List Nat).length = 1 ∨ ([97] : List Nat).length = 2 ∨
     ([97] : List Nat).length = 3 ∨ ([97] : List Nat).length = 32767 ∨
     ([97] : List Nat).length = 32768 ∨ ([97] : List Nat).length = 32769 ∨
     ([97] : List Nat).length = 65536) ∧
    ∃ out, encodeBytes 15 ([97] : List Nat).length [97] = .ok out ∧
      decodeBytes 15 ([97] : List Nat).length out = .ok [97] :=
  ⟨Or.inl rfl, claim_c2_amended [97] (Or.inl rfl)⟩


/-! ## Lemmas about the word-stream semantics (claim C3) -/

theorem wordsOf_zero (x : Nat) : wordsOf 0 x = [] := rfl

theorem sVal_lt (pairs : List (Nat × Nat))
    (h : ∀ p ∈ pairs, p.2 < 2 ^ p.1) : sVal pairs < 2 ^ sBits pairs := by
  induction pairs with
  | nil => simp [sVal, sBits]
  | cons p rest ih =>
    obtain ⟨n, v⟩ := p
    have hv : v < 2 ^ n := h (n, v) (by simp)
    have hr : sVal rest < 2 ^ sBits rest := ih (fun q hq => h q (by simp [hq]))
    simp only [sVal, sBits]
    calc v * 2 ^ sBits rest + sVal rest
        < v * 2 ^ sBits rest + 2 ^ sBits rest := by omega
      _ = (v + 1) * 2 ^ sBits rest := by ring
      _ ≤ 2 ^ n * 2 ^ sBits rest := Nat.mul_le_mul_right _ (by omega)
      _ = 2 ^ (n + sBits rest) := by rw [← pow_add]

/-- Splitting a modulus across a two-level positional decomposition. -/
theorem split_mod (a r M N : Nat) (hr : r < N) (hM : 0 < M) :
    (a * N + r) % (M * N) = a % M * N + r := by
  have h1 : a * N + r = a % M * N + r + M * N * (a / M) := by
    conv_lhs => rw [← Nat.div_add_mod a M]
    ring
  rw [h1, Nat.add_mul_mod_self_left]
  exact Nat.mod_eq_of_lt (by
    have h2 : a % M < M := Nat.mod_lt _ hM
    calc a % M * N + r < a % M * N + N := by omega
      _ = (a % M + 1) * N := by ring
      _ ≤ M * N := Nat.mul_le_mul_right _ (by omega))

/-- The high part of a positional decomposition. -/
theorem top_div {A r s : Nat} (hr : r < 2 ^ s) :
    (A * 2 ^ s + r) / 2 ^ s = A := by
  rw [Nat.mul_comm, Nat.mul_add_div (Nat.two_pow_pos _),
    Nat.div_eq_of_lt hr, Nat.add_zero]

/-- The low part of a positional decomposition. -/
theorem top_mod {A r s : Nat} (hr : r < 2 ^ s) :
    (A * 2 ^ s + r) % 2 ^ s = r := by
  rw [Nat.mul_comm, Nat.mul_add_mod]
  exact Nat.mod_eq_of_lt hr

/-- Taking a low slice commutes with shifting right. -/
theorem mod_pow_div (a e r : Nat) :
    a % 2 ^ (r + e) / 2 ^ r = a / 2 ^ r % 2 ^ e := by
  rw [pow_add]
  exact Nat.mod_mul_right_div_self a (2 ^ r) (2 ^ e)

/-- The first `n` bits of a stream whose top `n + sbr` bits are known. -/
theorem stream_head {n sbr v svr T Y : Nat} (hsb : n + sbr ≤ T)
    (hsvr : svr < 2 ^ sbr)
    (htop : Y / 2 ^ (T - (n + sbr)) = v * 2 ^ sbr + svr) :
    Y / 2 ^ (T - n) = v := by
  have he : T - n = T - (n + sbr) + sbr := by omega
  rw [he, pow_add, ← Nat.div_div_eq_div_mul, htop, top_div hsvr]

/-- The bits after the first `n` of a stream whose top `n + sbr` bits are
known. -/
theorem stream_tail {n sbr v svr T Y : Nat} (hsb : n + sbr ≤ T)
    (hsvr : svr < 2 ^ sbr)
    (htop : Y / 2 ^ (T - (n + sbr)) = v * 2 ^ sbr + svr) :
    Y % 2 ^ (T - n) / 2 ^ (T - n - sbr) = svr := by
  have he : T - n = T - (n + sbr) + sbr := by omega
  have he2 : T - n - sbr = T - (n + sbr) := by omega
  rw [he2, he, mod_pow_div, htop, top_mod hsvr]


/-- Unfolding `wordsOf` one word at a time. -/
theorem wordsOf_succ (t x : Nat) :
    wordsOf (t + 16) x =
      x / 2 ^ t % 256 :: x / 2 ^ t / 256 :: wordsOf t (x % 2 ^ t) := rfl

/-- Appending one word at the bottom of a word stream. -/
theorem wordsOf_append : ∀ (k x w : Nat), x < 2 ^ (16 * k) → w < 2 ^ 16 →
    wordsOf (16 * k + 16) (x * 2 ^ 16 + w) =
      wordsOf (16 * k) x ++ [w % 256, w / 256] := by
  intro k
  induction k with
  | zero =>
    intro x w hx hw
    have hx0 : x = 0 := by
      simp only [Nat.mul_zero, pow_zero] at hx
      omega
    subst hx0
    have h := wordsOf_succ 0 (0 * 2 ^ 16 + w)
    simp only [Nat.zero_add, Nat.zero_mul] at h
    simp only [Nat.mul_zero, Nat.zero_mul, Nat.zero_add] at h ⊢
    rw [h, pow_zero, Nat.div_one, Nat.mod_one, wordsOf_zero]
    simp
  | succ k ih =>
    intro x w hx hw
    have hms : 16 * (k + 1) = 16 * k + 16 := by ring
    rw [hms] at hx ⊢
    have hd : (x * 2 ^ 16 + w) / 2 ^ (16 * k + 16) = x / 2 ^ (16 * k) := by
      conv_lhs => rw [show 16 * k + 16 = 16 + 16 * k from by omega, pow_add,
        ← Nat.div_div_eq_div_mul]
      congr 1
      exact top_div hw
    have hm : (x * 2 ^ 16 + w) % 2 ^ (16 * k + 16) =
        x % 2 ^ (16 * k) * 2 ^ 16 + w := by
      rw [pow_add]
      exact split_mod x w (2 ^ (16 * k)) (2 ^ 16) hw (Nat.two_pow_pos _)
    rw [wordsOf_succ (16 * k + 16) (x * 2 ^ 16 + w), hd, hm,
      ih (x % 2 ^ (16 * k)) w (Nat.mod_lt _ (Nat.two_pow_pos _)) hw,
      wordsOf_succ (16 * k) x]
    simp [List.cons_append]


set_option maxHeartbeats 2000000 in
/-- Reading a list of widths from a word stream whose top bits are the
pairs' concatenated values returns exactly those values. -/
theorem readWidths_ok (pairs : List (Nat × Nat)) :
    ∀ (c W t x m : Nat), c ≤ 15 → W < 2 ^ c → t % 16 = 0 → x < 2 ^ t →
    (∀ p ∈ pairs, 1 ≤ p.1 ∧ p.1 ≤ 16 ∧ p.2 < 2 ^ p.1) →
    sBits pairs ≤ c + t →
    (W * 2 ^ t + x) / 2 ^ (c + t - sBits pairs) = sVal pairs →
    readWidths (pairs.map Prod.fst) ⟨wordsOf t x, W * 2 ^ (64 - c), c, m⟩ =
      .ok (pairs.map Prod.snd) := by
  induction pairs with
  | nil =>
    intro c W t x m _ _ _ _ _ _ _
    rfl
  | cons p rest ih =>
    obtain ⟨n, v⟩ := p
    intro c W t x m hc hW ht hx hb hsb htop
    have hbn := hb (n, v) (by simp)
    have hbr : ∀ p ∈ rest, 1 ≤ p.1 ∧ p.1 ≤ 16 ∧ p.2 < 2 ^ p.1 :=
      fun q hq => hb q (by simp [hq])
    have hsvr : sVal rest < 2 ^ sBits rest :=
      sVal_lt rest (fun q hq => (hbr q hq).2.2)
    simp only [sBits] at hsb
    simp only [sBits, sVal] at htop
    simp only [List.map_cons, readWidths]
    by_cases hcn : n ≤ c
    · rw [read_bits_no_refill hW (by omega) hbn.1 (by omega) hcn]
      dsimp only
      have hYW : (W * 2 ^ t + x) / 2 ^ (c + t - n) = W / 2 ^ (c - n) := by
        rw [show c + t - n = t + (c - n) from by omega, pow_add,
          ← Nat.div_div_eq_div_mul]
        congr 1
        rw [Nat.add_comm, Nat.add_mul_div_right _ _ (Nat.two_pow_pos t),
          Nat.div_eq_of_lt hx, Nat.zero_add]
      have hval : W / 2 ^ (c - n) = v := by
        rw [← hYW]
        exact @stream_head n (sBits rest) v (sVal rest) (c + t)
          (W * 2 ^ t + x) (by omega) hsvr htop
      have htail : (W % 2 ^ (c - n) * 2 ^ t + x) /
          2 ^ (c - n + t - sBits rest) = sVal rest := by
        have hsplit : W % 2 ^ (c - n) * 2 ^ t + x =
            (W * 2 ^ t + x) % 2 ^ (c + t - n) := by
          rw [show c + t - n = (c - n) + t from by omega, pow_add,
            split_mod W x (2 ^ (c - n)) (2 ^ t) hx (Nat.two_pow_pos _)]
        rw [hsplit, show c - n + t - sBits rest =
          c + t - n - sBits rest from by omega]
        exact @stream_tail n (sBits rest) v (sVal rest) (c + t)
          (W * 2 ^ t + x) (by omega) hsvr htop
      have hr := ih (c - n) (W % 2 ^ (c - n)) t x ((m + n) % 16) (by omega)
        (Nat.mod_lt _ (Nat.two_pow_pos _)) ht hx hbr (by omega) htail
      rw [hr]
      dsimp only
      rw [hval]
    · have ht16 : 16 ≤ t := by omega
      obtain ⟨u, rfl⟩ : ∃ u, t = u + 16 := ⟨t - 16, by omega⟩
      have hq : x / 2 ^ u < 2 ^ 16 :=
        Nat.div_lt_of_lt_mul (by rw [← pow_add]; exact hx)
      rw [wordsOf_succ u x]
      rw [@read_bits_refill (wordsOf u (x % 2 ^ u)) W c m n
        (x / 2 ^ u % 256) (x / 2 ^ u / 256) hW hbn.1 (by omega) (by omega)
        (by omega) (by omega) (by omega)]
      dsimp only
      rw [Nat.mod_add_div]
      have hdecomp : W * 2 ^ (u + 16) + x =
          (W * 2 ^ 16 + x / 2 ^ u) * 2 ^ u + x % 2 ^ u := by
        conv_lhs => rw [← Nat.div_add_mod x (2 ^ u)]
        rw [pow_add]
        ring
      have hYQ : (W * 2 ^ (u + 16) + x) / 2 ^ (c + (u + 16) - n) =
          (W * 2 ^ 16 + x / 2 ^ u) / 2 ^ (c + 16 - n) := by
        rw [hdecomp, show c + (u + 16) - n = u + (c + 16 - n) from by omega,
          pow_add, ← Nat.div_div_eq_div_mul]
        congr 1
        rw [Nat.add_comm, Nat.add_mul_div_right _ _ (Nat.two_pow_pos u),
          Nat.div_eq_of_lt (Nat.mod_lt _ (Nat.two_pow_pos _)), Nat.zero_add]
      have hval : (W * 2 ^ 16 + x / 2 ^ u) / 2 ^ (c + 16 - n) = v := by
        rw [← hYQ]
        exact @stream_head n (sBits rest) v (sVal rest) (c + (u + 16))
          (W * 2 ^ (u + 16) + x) (by omega) hsvr htop
      have htail : ((W * 2 ^ 16 + x / 2 ^ u) % 2 ^ (c + 16 - n) * 2 ^ u +
          x % 2 ^ u) / 2 ^ (c + 16 - n + u - sBits rest) = sVal rest := by
        have hsplit : (W * 2 ^ 16 + x / 2 ^ u) % 2 ^ (c + 16 - n) * 2 ^ u +
            x % 2 ^ u = (W * 2 ^ (u + 16) + x) % 2 ^ (c + (u + 16) - n) := by
          rw [hdecomp, show c + (u + 16) - n = (c + 16 - n) + u from by omega,
            pow_add, split_mod _ _ (2 ^ (c + 16 - n)) (2 ^ u)
              (Nat.mod_lt _ (Nat.two_pow_pos _)) (Nat.two_pow_pos _)]
        rw [hsplit, show c + 16 - n + u - sBits rest =
          c + (u + 16) - n - sBits rest from by omega]
        exact @stream_tail n (sBits rest) v (sVal rest) (c + (u + 16))
          (W * 2 ^ (u + 16) + x) (by omega) hsvr htop
      have hr := ih (c + 16 - n) ((W * 2 ^ 16 + x / 2 ^ u) % 2 ^ (c + 16 - n))
        u (x % 2 ^ u) ((m + n) % 16) (by omega)
        (Nat.mod_lt _ (Nat.two_pow_pos _)) (by omega)
        (Nat.mod_lt _ (Nat.two_pow_pos _)) hbr (by omega) htail
      rw [hr]
      dsimp only
      rw [hval]


set_option maxHeartbeats 2000000 in
/-- Writing a list of (width, value) pairs through `write_bits` emits
exactly the whole 16-bit words of the accumulated bit stream and keeps the
remainder pending in the buffer. -/
theorem writePairs_eval (pairs : List (Nat × Nat)) :
    ∀ (out : List Nat) (V b : Nat), b ≤ 15 → V < 2 ^ b →
    (∀ p ∈ pairs, 1 ≤ p.1 ∧ p.1 ≤ 16 ∧ p.2 < 2 ^ p.1) →
    writePairs pairs ⟨out, V * 2 ^ (64 - b), b, false⟩ =
      .ok ⟨out ++ wordsOf (b + sBits pairs - (b + sBits pairs) % 16)
             ((V * 2 ^ sBits pairs + sVal pairs) /
               2 ^ ((b + sBits pairs) % 16)),
           (V * 2 ^ sBits pairs + sVal pairs) % 2 ^ ((b + sBits pairs) % 16) *
             2 ^ (64 - (b + sBits pairs) % 16),
           (b + sBits pairs) % 16, false⟩ := by
  induction pairs with
  | nil =>
    intro out V b hb hV _
    simp only [writePairs, sBits, sVal, Nat.add_zero, pow_zero, Nat.mul_one]
    rw [show b % 16 = b from by omega]
    rw [Nat.sub_self, wordsOf_zero, List.append_nil, Nat.mod_eq_of_lt hV]
  | cons p rest ih =>
    obtain ⟨n, v⟩ := p
    intro out V b hb hV hbd
    have hbn : 1 ≤ n ∧ n ≤ 16 ∧ v < 2 ^ n := hbd (n, v) (by simp)
    have hbr : ∀ p ∈ rest, 1 ≤ p.1 ∧ p.1 ≤ 16 ∧ p.2 < 2 ^ p.1 :=
      fun q hq => hbd q (by simp [hq])
    have hsvr : sVal rest < 2 ^ sBits rest :=
      sVal_lt rest (fun q hq => (hbr q hq).2.2)
    have hVn : V * 2 ^ n + v < 2 ^ (b + n) := by
      calc V * 2 ^ n + v < V * 2 ^ n + 2 ^ n := by omega
        _ = (V + 1) * 2 ^ n := by ring
        _ ≤ 2 ^ b * 2 ^ n := Nat.mul_le_mul_right _ (by omega)
        _ = 2 ^ (b + n) := by rw [← pow_add]
    simp only [writePairs, sBits, sVal]
    by_cases hcase : b + n < 16
    · rw [write_bits_noflush hbn.1 hcase hbn.2.2]
      dsimp only
      rw [ih out (V * 2 ^ n + v) (b + n) (by omega) hVn hbr]
      have hBe : b + n + sBits rest = b + (n + sBits rest) := by omega
      have hCe : (V * 2 ^ n + v) * 2 ^ sBits rest + sVal rest =
          V * 2 ^ (n + sBits rest) + (v * 2 ^ sBits rest + sVal rest) := by
        rw [pow_add]; ring
      rw [hBe, hCe]
    · rw [write_bits_flush1 hV hbn.1 hb (by omega) (by omega) (by omega)
        hbn.2.2]
      dsimp only
      rw [ih (out ++ [(V * 2 ^ n + v) / 2 ^ (b + n - 16) % 256,
            (V * 2 ^ n + v) / 2 ^ (b + n - 16) / 256])
          ((V * 2 ^ n + v) % 2 ^ (b + n - 16)) (b + n - 16) (by omega)
          (Nat.mod_lt _ (Nat.two_pow_pos _)) hbr]
      have hCe : V * 2 ^ (n + sBits rest) + (v * 2 ^ sBits rest + sVal rest) =
          (V * 2 ^ n + v) * 2 ^ sBits rest + sVal rest := by
        rw [pow_add]; ring
      rw [hCe]
      have he1 : b + n - 16 + sBits rest = b + (n + sBits rest) - 16 := by
        omega
      rw [he1]
      have he2 : (b + (n + sBits rest) - 16) % 16 =
          (b + (n + sBits rest)) % 16 := by omega
      rw [he2]
      have hsplit : (V * 2 ^ n + v) % 2 ^ (b + n - 16) * 2 ^ sBits rest +
          sVal rest = ((V * 2 ^ n + v) * 2 ^ sBits rest + sVal rest) %
            2 ^ (b + (n + sBits rest) - 16) := by
        rw [show b + (n + sBits rest) - 16 = (b + n - 16) + sBits rest from by
          omega, pow_add,
          split_mod _ _ (2 ^ (b + n - 16)) (2 ^ sBits rest) hsvr
            (Nat.two_pow_pos _)]
      rw [hsplit]
      have hwd : (V * 2 ^ n + v) / 2 ^ (b + n - 16) =
          ((V * 2 ^ n + v) * 2 ^ sBits rest + sVal rest) /
            2 ^ (b + (n + sBits rest) - 16) := by
        rw [show b + (n + sBits rest) - 16 = sBits rest + (b + n - 16) from by
          omega, pow_add, ← Nat.div_div_eq_div_mul, top_div hsvr]
      rw [hwd]
      have hsp : b + (n + sBits rest) - (b + (n + sBits rest)) % 16 =
          (b + (n + sBits rest) - 16 - (b + (n + sBits rest)) % 16) + 16 := by
        omega
      rw [hsp, wordsOf_succ]
      have hh : ((V * 2 ^ n + v) * 2 ^ sBits rest + sVal rest) /
            2 ^ ((b + (n + sBits rest)) % 16) /
            2 ^ (b + (n + sBits rest) - 16 - (b + (n + sBits rest)) % 16) =
          ((V * 2 ^ n + v) * 2 ^ sBits rest + sVal rest) /
            2 ^ (b + (n + sBits rest) - 16) := by
        rw [Nat.div_div_eq_div_mul, ← pow_add,
          show (b + (n + sBits rest)) % 16 +
            (b + (n + sBits rest) - 16 - (b + (n + sBits rest)) % 16) =
            b + (n + sBits rest) - 16 from by omega]
      rw [hh]
      have hmm2 : ((V * 2 ^ n + v) * 2 ^ sBits rest + sVal rest) /
            2 ^ ((b + (n + sBits rest)) % 16) %
            2 ^ (b + (n + sBits rest) - 16 - (b + (n + sBits rest)) % 16) =
          ((V * 2 ^ n + v) * 2 ^ sBits rest + sVal rest) %
            2 ^ (b + (n + sBits rest) - 16) /
            2 ^ ((b + (n + sBits rest)) % 16) := by
        have h := mod_pow_div ((V * 2 ^ n + v) * 2 ^ sBits rest + sVal rest)
          (b + (n + sBits rest) - 16 - (b + (n + sBits rest)) % 16)
          ((b + (n + sBits rest)) % 16)
        rw [show (b + (n + sBits rest)) % 16 +
          (b + (n + sBits rest) - 16 - (b + (n + sBits rest)) % 16) =
          b + (n + sBits rest) - 16 from by omega] at h
        exact h.symm
      rw [hmm2]
      have hbuf : ((V * 2 ^ n + v) * 2 ^ sBits rest + sVal rest) %
            2 ^ (b + (n + sBits rest) - 16) %
            2 ^ ((b + (n + sBits rest)) % 16) =
          ((V * 2 ^ n + v) * 2 ^ sBits rest + sVal rest) %
            2 ^ ((b + (n + sBits rest)) % 16) :=
        Nat.mod_mod_of_dvd _ (pow_dvd_pow 2 (by omega))
      rw [hbuf]
      simp [List.append_assoc, List.cons_append]


set_option maxHeartbeats 1000000 in
/-- C3 amended: the write/read bit round-trip returns the original values
for any sequence of (width, value) pairs with widths in 1..=16 (for widths
17..=32 the claim fails: the reader refills at most one word, cannot serve
17 or more bits from an empty buffer, and its internal assertion fires). -/
theorem claim_c3_amended (pairs : List (Nat × Nat))
    (hb : ∀ p ∈ pairs, 1 ≤ p.1 ∧ p.1 ≤ 16 ∧ p.2 < 2 ^ p.1) :
    bitRoundTrip pairs = .ok (pairs.map Prod.snd) := by
  have hsv : sVal pairs < 2 ^ sBits pairs :=
    sVal_lt pairs (fun q hq => (hb q hq).2.2)
  unfold bitRoundTrip
  have hnew : BitWriter.new = (⟨[], 0, 0, false⟩ : BitWriter) := rfl
  have hrnew : ∀ inp : List Nat, BitReader.new inp =
      (⟨inp, 0, 0, 0⟩ : BitReader) := fun _ => rfl
  have hw := writePairs_eval pairs [] 0 0 (by omega) (by norm_num) hb
  simp only [Nat.zero_add, Nat.zero_mul, List.nil_append] at hw
  rw [hnew, hw]
  dsimp only
  by_cases hb0 : sBits pairs % 16 = 0
  · rw [hb0]
    simp only [pow_zero, Nat.div_one, Nat.mod_one, Nat.sub_zero, Nat.zero_mul]
    rw [align16w_zero]
    dsimp only
    have hr := readWidths_ok pairs 0 0 (sBits pairs) (sVal pairs) 0
      (by omega) (by norm_num) hb0 hsv hb (by omega)
      (by simp)
    rw [show (0 : Nat) * 2 ^ (64 - 0) = 0 from rfl] at hr
    rw [hrnew]
    exact hr
  · rw [align16w_pos (Nat.mod_lt _ (Nat.two_pow_pos _)) (by omega) (by omega)]
    dsimp only
    obtain ⟨k, hk⟩ : ∃ k, sBits pairs - sBits pairs % 16 = 16 * k :=
      ⟨sBits pairs / 16, by omega⟩
    have hxlt : sVal pairs / 2 ^ (sBits pairs % 16) < 2 ^ (16 * k) := by
      rw [← hk]
      refine Nat.div_lt_of_lt_mul ?_
      rw [← pow_add, show sBits pairs % 16 +
        (sBits pairs - sBits pairs % 16) = sBits pairs from by omega]
      exact hsv
    have hwlt : sVal pairs % 2 ^ (sBits pairs % 16) *
        2 ^ (16 - sBits pairs % 16) < 2 ^ 16 := by
      calc sVal pairs % 2 ^ (sBits pairs % 16) * 2 ^ (16 - sBits pairs % 16)
          < 2 ^ (sBits pairs % 16) * 2 ^ (16 - sBits pairs % 16) :=
            mul_lt_mul_of_pos_right (Nat.mod_lt _ (Nat.two_pow_pos _))
              (Nat.two_pow_pos _)
        _ = 2 ^ 16 := by rw [← pow_add]; congr 1; omega
    have happ := wordsOf_append k (sVal pairs / 2 ^ (sBits pairs % 16))
      (sVal pairs % 2 ^ (sBits pairs % 16) * 2 ^ (16 - sBits pairs % 16))
      hxlt hwlt
    rw [← hk] at happ
    rw [← happ]
    have hX : sVal pairs / 2 ^ (sBits pairs % 16) * 2 ^ 16 +
        sVal pairs % 2 ^ (sBits pairs % 16) * 2 ^ (16 - sBits pairs % 16) =
        sVal pairs * 2 ^ (16 - sBits pairs % 16) := by
      conv_rhs => rw [← Nat.div_add_mod (sVal pairs) (2 ^ (sBits pairs % 16))]
      rw [show (2 : Nat) ^ 16 =
        2 ^ (sBits pairs % 16) * 2 ^ (16 - sBits pairs % 16) from by
          rw [← pow_add]; congr 1; omega]
      ring
    rw [hX]
    have hr := readWidths_ok pairs 0 0 (sBits pairs - sBits pairs % 16 + 16)
      (sVal pairs * 2 ^ (16 - sBits pairs % 16)) 0
      (by omega) (by norm_num) (by omega)
      (by
        rw [show sBits pairs - sBits pairs % 16 + 16 =
          sBits pairs + (16 - sBits pairs % 16) from by omega, pow_add]
        exact mul_lt_mul_of_pos_right hsv (Nat.two_pow_pos _))
      hb (by omega)
      (by
        rw [show 0 + (sBits pairs - sBits pairs % 16 + 16) - sBits pairs =
          16 - sBits pairs % 16 from by omega]
        simp only [Nat.zero_mul, Nat.zero_add]
        exact Nat.mul_div_cancel _ (Nat.two_pow_pos _))
    rw [show (0 : Nat) * 2 ^ (64 - 0) = 0 from rfl] at hr
    rw [hrnew]
    exact hr

/-- C3 amended, witness: the single pair (width 3, value 5) round-trips. -/
theorem claim_c3_witness :
    (∀ p ∈ [((3 : Nat), (5 : Nat))], 1 ≤ p.1 ∧ p.1 ≤ 16 ∧ p.2 < 2 ^ p.1) ∧
    bitRoundTrip [(3, 5)] = .ok ([((3 : Nat), (5 : Nat))].map Prod.snd) :=
  ⟨by decide, claim_c3_amended [(3, 5)] (by decide)⟩

end Lzxd
